import Mathlib

/-!
Shallow embedding of the batpu-assembler pipeline.

The embedding follows the current sources under `src/src/`:
`assembler.rs` (driver: `parse_piece`, `parse_line`, `parse`, `assemble`,
`assemble_to_file`, the operand parsers and numeric-literal parsers),
`assembler_error.rs` (`AssemblerError` with its `Ord`/`Eq` instances),
`assembly/instruction.rs` (`Instruction::index`, `Instruction::binary`),
`assembly/location.rs` (`Location::get_address`) and
`assembly/condition.rs` (`Condition::index`).

Strings are `List Char`; Rust's `HashMap` symbol tables become association
lists (all insertions in the source are guarded by `contains_key`, so keys
are unique and lookup order is irrelevant); `u16` words become `Nat`
(boundedness by `2^16` is proved, not assumed); `i32`/`u32` parsing keeps
Rust's overflow failures explicit.

The component types `Register`, `Immediate`, `Offset` and `Address` live in
the external `batpu_assembly` crate whose sources are not in the repository;
they are modelled from the spec (§3 data model: register 0–15, immediate
−128…255, offset −8…7, address bounded by program space) and from the
in-repo older snapshot `src/src/assembler/assembler.rs`, which performs the
same range checks inline.
-/

/-- Rust `&str` modelled as a list of characters. -/
abbrev Str := List Char

/-- Unicode `White_Space` characters, as used by Rust's
`char::is_whitespace` / `str::trim` / `str::split_whitespace`. -/
def isRustWhitespace (c : Char) : Bool :=
  c = ' ' || c = '\t' || c = '\n' || c = '\r' ||
  c = Char.ofNat 0x0b || c = Char.ofNat 0x0c || c = Char.ofNat 0x85 ||
  c = Char.ofNat 0xa0 || c = Char.ofNat 0x1680 ||
  (0x2000 ≤ c.toNat && c.toNat ≤ 0x200a) ||
  c = Char.ofNat 0x2028 || c = Char.ofNat 0x2029 ||
  c = Char.ofNat 0x202f || c = Char.ofNat 0x205f || c = Char.ofNat 0x3000

/-- `str::trim`: drop whitespace from both ends. -/
def trimStr (s : Str) : Str :=
  ((s.dropWhile isRustWhitespace).reverse.dropWhile isRustWhitespace).reverse

/-- Truncation at the first occurrence of `//`, as in
`line.find("//")` followed by `&line[..index]` in `parse_line`. -/
def truncAtComment : Str → Str
  | [] => []
  | '/' :: '/' :: _ => []
  | c :: t => c :: truncAtComment t

/-- Helper for `splitOnChar`: `acc` is the current segment, reversed. -/
def splitOnCharAux (sep : Char) : Str → Str → List Str
  | [], acc => [acc.reverse]
  | c :: t, acc =>
    if c = sep then acc.reverse :: splitOnCharAux sep t []
    else splitOnCharAux sep t (c :: acc)

/-- Rust `str::split(sep)`: splits at every separator, keeping empty
segments (always returns at least one segment). -/
def splitOnChar (sep : Char) (s : Str) : List Str :=
  splitOnCharAux sep s []

/-- Helper for `splitWhitespace`: `acc` is the current token, reversed. -/
def splitWhitespaceAux : Str → Str → List Str
  | [], acc => if acc = [] then [] else [acc.reverse]
  | c :: t, acc =>
    if isRustWhitespace c then
      if acc = [] then splitWhitespaceAux t []
      else acc.reverse :: splitWhitespaceAux t []
    else splitWhitespaceAux t (c :: acc)

/-- Rust `str::split_whitespace`: whitespace-delimited tokens, empty
tokens skipped. -/
def splitWhitespace (s : Str) : List Str :=
  splitWhitespaceAux s []

/-- Remove a single trailing carriage return (part of Rust `str::lines`). -/
def stripTrailingCR (s : Str) : Str :=
  if s.getLast? = some '\r' then s.dropLast else s

/-- Rust `str::lines`: split on `'\n'`, not yielding a final empty line
for a trailing newline, and strip one `'\r'` from each line end. -/
def linesOf (s : Str) : List Str :=
  let segs := splitOnChar '\n' s
  let segs := if segs.getLast? = some [] then segs.dropLast else segs
  segs.map stripTrailingCR

/-- `str::ends_with(char)`. -/
def endsWithChar (c : Char) (s : Str) : Bool :=
  s.getLast? = some c

/-- Value of one digit character for a radix ≤ 36, as accepted by Rust's
`char::to_digit` (decimal digits, then letters of either case). -/
def digitValue (radix : Nat) (c : Char) : Option Nat :=
  let v :=
    if '0' ≤ c && c ≤ '9' then some (c.toNat - '0'.toNat)
    else if 'a' ≤ c && c ≤ 'z' then some (c.toNat - 'a'.toNat + 10)
    else if 'A' ≤ c && c ≤ 'Z' then some (c.toNat - 'A'.toNat + 10)
    else none
  match v with
  | some n => if n < radix then some n else none
  | none => none

/-- Accumulate the value of a non-empty digit string; `none` on any
invalid digit. -/
def digitsValue (radix : Nat) : Str → Nat → Option Nat
  | [], acc => some acc
  | c :: t, acc =>
    match digitValue radix c with
    | some d => digitsValue radix t (acc * radix + d)
    | none => none

/-- Error messages of Rust's `core::num::ParseIntError`. -/
def peEmpty : String := "cannot parse integer from empty string"

def peInvalidDigit : String := "invalid digit found in string"

def peTooLarge : String := "number too large to fit in target type"

def peTooSmall : String := "number too small to fit in target type"

/-- Rust `u32::from_str_radix` (and `str::parse::<u32>` at radix 10):
optional `+` sign, at least one digit, failure on overflow past
`u32::MAX`.  A `-` sign is an invalid digit for an unsigned target. -/
def fromStrRadixU32 (radix : Nat) (s : Str) : Except String Nat :=
  match s with
  | [] => .error peEmpty
  | c :: t =>
    let digits := if c = '+' || c = '-' then t else s
    if c = '-' then .error peInvalidDigit
    else match digits with
    | [] => .error peInvalidDigit
    | _ =>
      match digitsValue radix digits 0 with
      | none => .error peInvalidDigit
      | some n => if n > 4294967295 then .error peTooLarge else .ok n

/-- Rust `i32::from_str_radix` (and `str::parse::<i32>` at radix 10):
optional sign, at least one digit, failure outside `i32`'s range. -/
def fromStrRadixI32 (radix : Nat) (s : Str) : Except String Int :=
  match s with
  | [] => .error peEmpty
  | c :: t =>
    let digits := if c = '+' || c = '-' then t else s
    match digits with
    | [] => .error peInvalidDigit
    | _ =>
      match digitsValue radix digits 0 with
      | none => .error peInvalidDigit
      | some n =>
        if c = '-' then
          if (n : Int) > 2147483648 then .error peTooSmall else .ok (-(n : Int))
        else
          if (n : Int) > 2147483647 then .error peTooLarge else .ok (n : Int)

/-- `Assembler::parse_u32`: strip `_` separators, then dispatch on a
`0x`/`0b` prefix, defaulting to decimal. -/
def parse_u32 (s : Str) : Except String Nat :=
  let s := s.filter (fun c => c ≠ '_')
  match s with
  | '0' :: 'x' :: t => fromStrRadixU32 16 t
  | '0' :: 'b' :: t => fromStrRadixU32 2 t
  | _ => fromStrRadixU32 10 s

/-- `Assembler::parse_i32`: strip `_` separators, then dispatch on a
`0x`/`0b` prefix, defaulting to decimal. -/
def parse_i32 (s : Str) : Except String Int :=
  let s := s.filter (fun c => c ≠ '_')
  match s with
  | '0' :: 'x' :: t => fromStrRadixI32 16 t
  | '0' :: 'b' :: t => fromStrRadixI32 2 t
  | _ => fromStrRadixI32 10 s

/-- Modelled from the spec: the external `batpu_assembly` crate's
`components::register::Register` is not in the repository.  Per spec §3 a
register is an integer in [0, 15]; the value is stored as parsed. -/
structure Register where
  val : Nat
deriving DecidableEq, Repr

/-- Modelled from the spec: `Register::new` validates the 0–15 range
(the in-repo older snapshot performs the same check inline with the
message reproduced here). -/
def Register.new (n : Nat) : Except String Register :=
  if n > 15 then .error ("Register " ++ toString n ++ " out of range, expected 0-15")
  else .ok ⟨n⟩

/-- Modelled from the spec: `components::immediate::Immediate` is not in
the repository.  Per spec §3 an immediate is a signed logical value in
−128…255; the stored value is masked to 8 bits only at encode time. -/
structure Immediate where
  val : Int
deriving DecidableEq, Repr

/-- `Immediate::new`: wrap an unsigned value. -/
def Immediate.new (n : Nat) : Immediate := ⟨(n : Int)⟩

/-- `Immediate::new_signed`: wrap a signed value. -/
def Immediate.new_signed (i : Int) : Immediate := ⟨i⟩

/-- Modelled from the spec: `components::offset::Offset` is not in the
repository.  Per spec §3 an offset is a signed integer in [−8, 7]. -/
structure Offset where
  val : Int
deriving DecidableEq, Repr

/-- Modelled from the spec: `Offset::new` validates the −8…7 range (the
in-repo older snapshot performs the same check inline). -/
def Offset.new (i : Int) : Except String Offset :=
  if i < -8 || i > 7 then .error ("Offset " ++ toString i ++ " out of range, expected -8-7")
  else .ok ⟨i⟩

/-- Modelled from the spec: `components::address::MAX_VALUE`, the largest
binary address.  The encoder in `assembly/instruction.rs` packs addresses
into a 10-bit field, so the largest address is `2^10 − 1`. -/
def addressMaxValue : Nat := 1023

/-- Modelled from the spec: `components::address::MAX_POSSIBLE_COUNT`,
the number of addressable instructions (spec glossary: the program space),
`MAX_VALUE + 1`. -/
def addressMaxPossibleCount : Nat := 1024

/-- Modelled from the spec: `components::address::Address` is not in the
repository.  Per spec §3 an address is bounded by the program space. -/
structure Address where
  val : Nat
deriving DecidableEq, Repr

/-- Modelled from the spec: `Address::new` validates the address range
(the in-repo older snapshot performs the same check inline; its 0-4095
literal is replaced by the 10-bit bound used by the encoder). -/
def Address.new (n : Nat) : Except String Address :=
  if n > addressMaxValue then
    .error ("Address " ++ toString n ++ " out of range, expected 0-" ++ toString addressMaxValue)
  else .ok ⟨n⟩

/-- `assembly/condition.rs`: the four branch conditions. -/
inductive Condition where
  | Zero
  | NotZero
  | Carry
  | NotCarry
deriving DecidableEq, Repr

/-- `Condition::index`: the fixed 2-bit encoding. -/
def Condition.index : Condition → Nat
  | .Zero => 0
  | .NotZero => 1
  | .Carry => 2
  | .NotCarry => 3

/-- `components::location::Location` (the in-repo `assembly/location.rs`
has the `Address` and `Label` variants; the current `assembler.rs` also
constructs a relative `Offset` variant, modelled from the spec §3). -/
inductive Location where
  | address (a : Address)
  | label (s : Str)
  | offset (o : Offset)
deriving DecidableEq, Repr

/-- The label table: name → instruction index (Rust
`Labels = HashMap<String, Immediate>`, storing instruction indices). -/
abbrev LabelTable := List (Str × Nat)

/-- Association-list lookup, the model of `HashMap::get`. -/
def alookup {α : Type} (k : Str) : List (Str × α) → Option α
  | [] => none
  | (k', v) :: t => if k' = k then some v else alookup k t

/-- `Location::get_address` (`assembly/location.rs`): an absolute address
resolves to itself, a label is looked up in the label table (an unknown
label is an error), and a relative offset (modelled from spec §3) is
taken relative to the instruction's own address. -/
def Location.get_address (loc : Location) (addr : Nat) (labels : LabelTable) : Except String Nat :=
  match loc with
  | .address a => .ok a.val
  | .label l =>
    match alookup l labels with
    | some v => .ok v
    | none => .error ("Unknown label \"" ++ String.mk l ++ "\"")
  | .offset o => .ok ((Int.ofNat addr) + o.val).toNat

/-- `assembly/instruction.rs`: the sixteen instruction variants. -/
inductive Instruction where
  | NoOperation
  | Halt
  | Addition (a b c : Register)
  | Subtraction (a b c : Register)
  | BitwiseNOR (a b c : Register)
  | BitwiseAND (a b c : Register)
  | BitwiseXOR (a b c : Register)
  | RightShift (a c : Register)
  | LoadImmediate (a : Register) (i : Immediate)
  | AddImmediate (a : Register) (i : Immediate)
  | Jump (l : Location)
  | Branch (c : Condition) (l : Location)
  | Call (l : Location)
  | Return
  | MemoryLoad (a b : Register) (o : Offset)
  | MemoryStore (a b : Register) (o : Offset)
deriving DecidableEq, Repr

/-- `Instruction::index`: the fixed 4-bit opcode index. -/
def Instruction.index : Instruction → Nat
  | .NoOperation => 0
  | .Halt => 1
  | .Addition _ _ _ => 2
  | .Subtraction _ _ _ => 3
  | .BitwiseNOR _ _ _ => 4
  | .BitwiseAND _ _ _ => 5
  | .BitwiseXOR _ _ _ => 6
  | .RightShift _ _ => 7
  | .LoadImmediate _ _ => 8
  | .AddImmediate _ _ => 9
  | .Jump _ => 10
  | .Branch _ _ => 11
  | .Call _ => 12
  | .Return => 13
  | .MemoryLoad _ _ _ => 14
  | .MemoryStore _ _ _ => 15

/-- The `immediate.immediate() as u16 & 0b1111_1111` field: the stored
signed value cast to `u16` (two's complement, i.e. `% 2^16`, always
non-negative) and masked to 8 bits. -/
def Immediate.field (i : Immediate) : Nat :=
  (i.val % 65536).toNat &&& 255

/-- `Instruction::binary` (`assembly/instruction.rs`): pack the opcode
index into the top 4 bits of the 16-bit word and the operand fields into
the format-specific positions.  The address argument is the instruction's
own position, as passed by `Assembler::assemble`. -/
def Instruction.binary (inst : Instruction) (addr : Nat) (labels : LabelTable) :
    Except String Nat :=
  let base : Nat := (inst.index &&& 15) <<< 12
  match inst with
  | .Addition a b c => .ok (base ||| ((a.val &&& 15) <<< 8) ||| ((b.val &&& 15) <<< 4) ||| (c.val &&& 15))
  | .Subtraction a b c => .ok (base ||| ((a.val &&& 15) <<< 8) ||| ((b.val &&& 15) <<< 4) ||| (c.val &&& 15))
  | .BitwiseNOR a b c => .ok (base ||| ((a.val &&& 15) <<< 8) ||| ((b.val &&& 15) <<< 4) ||| (c.val &&& 15))
  | .BitwiseAND a b c => .ok (base ||| ((a.val &&& 15) <<< 8) ||| ((b.val &&& 15) <<< 4) ||| (c.val &&& 15))
  | .BitwiseXOR a b c => .ok (base ||| ((a.val &&& 15) <<< 8) ||| ((b.val &&& 15) <<< 4) ||| (c.val &&& 15))
  | .RightShift a c => .ok (base ||| ((a.val &&& 15) <<< 8) ||| (c.val &&& 15))
  | .LoadImmediate a i => .ok (base ||| ((a.val &&& 15) <<< 8) ||| i.field)
  | .AddImmediate a i => .ok (base ||| ((a.val &&& 15) <<< 8) ||| i.field)
  | .Jump l =>
    match l.get_address addr labels with
    | .ok address => .ok (base ||| ((address % 65536) &&& 1023))
    | .error e => .error e
  | .Branch c l =>
    match l.get_address addr labels with
    | .ok address => .ok (base ||| ((c.index &&& 3) <<< 10) ||| ((address % 65536) &&& 1023))
    | .error e => .error e
  | .Call l =>
    match l.get_address addr labels with
    | .ok address => .ok (base ||| ((address % 65536) &&& 1023))
    | .error e => .error e
  | .MemoryLoad a b o =>
    .ok (base ||| ((a.val &&& 15) <<< 8) ||| ((b.val &&& 15) <<< 4) ||| ((o.val % 65536).toNat &&& 15))
  | .MemoryStore a b o =>
    .ok (base ||| ((a.val &&& 15) <<< 8) ||| ((b.val &&& 15) <<< 4) ||| ((o.val % 65536).toNat &&& 15))
  | _ => .ok base

/-- `assembler_error.rs`: a description plus an optional 1-based source
line number. -/
structure AssemblerError where
  description : String
  line : Option Nat
deriving DecidableEq, Repr

/-- `AssemblerError::new`: an unnumbered (global) error. -/
def AssemblerError.new (description : String) : AssemblerError :=
  ⟨description, none⟩

/-- `AssemblerError::new_line`: an error at a known line. -/
def AssemblerError.new_line (description : String) (line : Nat) : AssemblerError :=
  ⟨description, some line⟩

/-- `AssemblerError::from_assembly_error_line`: wrap an assembly error's
description with a line number. -/
def AssemblerError.from_assembly_error_line (e : String) (line : Nat) : AssemblerError :=
  ⟨e, some line⟩

/-- Rust's `Ord for Option<u32>`: `None` sorts before every `Some`. -/
def optNatCmp : Option Nat → Option Nat → Ordering
  | none, none => .eq
  | none, some _ => .lt
  | some _, none => .gt
  | some a, some b => compare a b

/-- `Ord for AssemblerError` (`assembler_error.rs`): comparison looks
only at the line number, never at the description. -/
def AssemblerError.cmp (e₁ e₂ : AssemblerError) : Ordering :=
  optNatCmp e₁.line e₂.line

/-- The derived `PartialEq for AssemblerError`: structural equality of
both fields. -/
def AssemblerError.beq (e₁ e₂ : AssemblerError) : Bool :=
  e₁.description = e₂.description && e₁.line = e₂.line

/-- `assembler_config.rs`: the configuration flags. -/
structure AssemblerConfig where
  default_defines : Bool
  print_info : Bool
  text_output : Bool
deriving DecidableEq, Repr

/-- `AssemblerConfig::default()`. -/
def AssemblerConfig.default : AssemblerConfig :=
  ⟨true, false, false⟩

/-- The built-in defines seeded by `Assembler::new` when
`default_defines` is set (`assembler.rs`). -/
def defaultDefines : List (Str × Str) :=
  [("SCR_PIX_X".toList, "240".toList),
   ("SCR_PIX_Y".toList, "241".toList),
   ("SCR_DRAW_PIX".toList, "242".toList),
   ("SCR_CLR_PIX".toList, "243".toList),
   ("SCR_GET_PIX".toList, "244".toList),
   ("SCR_PUSH".toList, "245".toList),
   ("SCR_CLR".toList, "246".toList),
   ("CHAR_DISP_PUSH".toList, "247".toList),
   ("CHAR_DISP_DRAW".toList, "248".toList),
   ("CHAR_DISP_CLR".toList, "249".toList),
   ("NUM_DISP_SHOW".toList, "250".toList),
   ("NUM_DISP_CLR".toList, "251".toList),
   ("NUM_DISP_SIGNED".toList, "252".toList),
   ("NUM_DISP_UNSIGNED".toList, "253".toList),
   ("RNG".toList, "254".toList),
   ("CONTROLLER".toList, "255".toList)]

/-- The assembler's mutable state (`struct Assembler`): configuration,
the instruction list paired with originating line numbers, the label and
define tables, and the current line counter. -/
structure AsmState where
  config : AssemblerConfig
  instructions : List (Instruction × Nat)
  labels : LabelTable
  defines : List (Str × Str)
  line : Nat
deriving DecidableEq, Repr

/-- `Assembler::new`: empty tables, optionally seeded defines. -/
def Assembler.new (config : AssemblerConfig) : AsmState :=
  { config := config
    instructions := []
    labels := []
    defines := if config.default_defines then defaultDefines else []
    line := 0 }

/-- `Assembler::join_with_and`. -/
def joinWithAnd (items : List String) : String :=
  match items with
  | [] => ""
  | [a] => a
  | [a, b] => a ++ " and " ++ b
  | _ => String.intercalate ", " items.dropLast ++ " and " ++ items.getLastD ""

/-- `Assembler::check_arguments`: the argument count (token count minus
the mnemonic) must equal the expected arity. -/
def checkArguments (actualLen : Nat) (expected : List String) (line : Nat) :
    Except AssemblerError Unit :=
  let actual := actualLen - 1
  if actual ≠ expected.length then
    .error (AssemblerError.new_line
      ("Expected " ++
        (if expected.length = 0 then "no arguments"
         else joinWithAnd expected ++ " (" ++ toString expected.length ++ " argument" ++
           (if expected.length = 1 then "" else "s") ++ ")") ++
        ", got " ++ toString actual ++ " instead") line)
  else .ok ()

/-- `Assembler::get_register`: the token must start with a lowercase
`r`; the remainder is parsed as a `u32` and validated by
`Register::new`. -/
def getRegister (line : Nat) (tok : Str) : Except AssemblerError Register :=
  if tok.head? = some 'r' then
    let t := tok.drop 1
    match fromStrRadixU32 10 t with
    | .ok num =>
      match Register.new num with
      | .ok r => .ok r
      | .error e => .error (AssemblerError.from_assembly_error_line e line)
    | .error e =>
      .error (AssemblerError.new_line
        ("Failed to parse register \"" ++ String.mk t ++ "\": " ++ e) line)
  else
    .error (AssemblerError.new_line
      ("Register \"" ++ String.mk tok ++ "\" must start with a lowercase 'r'") line)

/-- The fixed character table (`const CHARACTERS` in `assembler.rs`). -/
def CHARACTERS : Str := " ABCDEFGHIJKLMNOPQRSTUVWXYZ.!?".toList

/-- `Assembler::get_immediate`: a single-quoted character is looked up
in the character table; anything else is parsed by `parse_i32` and
validated against the immediate's −128…255 range (the range check is
inline in the in-repo snapshot `assembler/assembler.rs`; the current file
delegates it to the external crate, modelled from spec §3). -/
def getImmediate (line : Nat) (tok : Str) : Except AssemblerError Immediate :=
  if tok.head? = some (Char.ofNat 39) then
    if ¬ (endsWithChar (Char.ofNat 39) tok) then
      .error (AssemblerError.new_line
        ("Immediate \"" ++ String.mk tok ++ "\" must end with ''") line)
    else
      let inner := (tok.drop 1).dropLast
      if inner.length ≠ 1 then
        .error (AssemblerError.new_line
          ("Immediate \"" ++ String.mk inner ++ "\" must only contain a single character") line)
      else
        let c := inner.headD ' '
        match CHARACTERS.indexOf? c with
        | some idx =>
          .ok (Immediate.new idx)
        | none =>
          .error (AssemblerError.new_line
            ("Character \"" ++ String.mk [c] ++ "\" is not supported, you can only use ones in \"" ++
              String.mk CHARACTERS ++ "\"") line)
  else
    match parse_i32 tok with
    | .ok num =>
      if num < -128 || num > 255 then
        .error (AssemblerError.new_line
          ("Immediate " ++ String.mk tok ++ " out of range, expected -128-255") line)
      else .ok (Immediate.new_signed num)
    | .error e =>
      .error (AssemblerError.new_line
        ("Failed to parse immediate \"" ++ String.mk tok ++ "\": " ++ e) line)

/-- `Assembler::get_location`: a leading `+`/`-` makes a relative
offset; otherwise a numeric token is an absolute address and a
non-numeric token is a label reference. -/
def getLocation (line : Nat) (tok : Str) : Except AssemblerError Location :=
  let add := tok.head? = some '+'
  let sub := tok.head? = some '-'
  if add || sub then
    match parse_u32 (tok.drop 1) with
    | .ok num =>
      let num : Int := if add then (num : Int) else -(num : Int)
      match Offset.new num with
      | .ok o => .ok (Location.offset o)
      | .error e => .error (AssemblerError.new e)
    | .error e =>
      .error (AssemblerError.new_line
        ("Failed to parse address offset \"" ++ String.mk tok ++ "\": " ++ e) line)
  else
    match parse_u32 tok with
    | .ok num =>
      match Address.new num with
      | .ok a => .ok (Location.address a)
      | .error e => .error (AssemblerError.from_assembly_error_line e line)
    | .error _ => .ok (Location.label tok)

/-- `Assembler::get_condition`: exact match against the four keywords. -/
def getCondition (line : Nat) (tok : Str) : Except AssemblerError Condition :=
  if tok = "zero".toList then .ok .Zero
  else if tok = "notzero".toList then .ok .NotZero
  else if tok = "carry".toList then .ok .Carry
  else if tok = "notcarry".toList then .ok .NotCarry
  else .error (AssemblerError.new_line
    ("Unknown condition: \"" ++ String.mk tok ++ "\"") line)

/-- `Assembler::get_offset`: parse as `i32` and validate by
`Offset::new` (range check inline in the in-repo snapshot). -/
def getOffset (line : Nat) (tok : Str) : Except AssemblerError Offset :=
  match parse_i32 tok with
  | .ok num =>
    match Offset.new num with
    | .ok o => .ok o
    | .error e => .error (AssemblerError.from_assembly_error_line e line)
  | .error e =>
    .error (AssemblerError.new_line
      ("Failed to parse offset \"" ++ String.mk tok ++ "\": " ++ e) line)

/-- Indexing `args[n]` (the source indexes only positions guaranteed by
`check_arguments`). -/
def argN (args : List Str) (n : Nat) : Str := args.getD n []

/-- The mnemonic dispatch of `Assembler::parse_piece` (`assembler.rs`,
`match name`).  `name` is the first token as captured *before* the define
substitution loop; `args` is the token vector *after* substitution. -/
def parseInstr (line : Nat) (name : Str) (args : List Str) :
    Except AssemblerError (Option Instruction) :=
  match name with
  | ['n', 'o', 'p'] => do
    checkArguments args.length [] line
    return some .NoOperation
  | ['h', 'l', 't'] => do
    checkArguments args.length [] line
    return some .Halt
  | ['a', 'd', 'd'] => do
    checkArguments args.length ["RegA", "RegB", "RegC"] line
    return some (.Addition (← getRegister line (argN args 1))
      (← getRegister line (argN args 2)) (← getRegister line (argN args 3)))
  | ['s', 'u', 'b'] => do
    checkArguments args.length ["RegA", "RegB", "RegC"] line
    return some (.Subtraction (← getRegister line (argN args 1))
      (← getRegister line (argN args 2)) (← getRegister line (argN args 3)))
  | ['n', 'o', 'r'] => do
    checkArguments args.length ["RegA", "RegB", "RegC"] line
    return some (.BitwiseNOR (← getRegister line (argN args 1))
      (← getRegister line (argN args 2)) (← getRegister line (argN args 3)))
  | ['a', 'n', 'd'] => do
    checkArguments args.length ["RegA", "RegB", "RegC"] line
    return some (.BitwiseAND (← getRegister line (argN args 1))
      (← getRegister line (argN args 2)) (← getRegister line (argN args 3)))
  | ['x', 'o', 'r'] => do
    checkArguments args.length ["RegA", "RegB", "RegC"] line
    return some (.BitwiseXOR (← getRegister line (argN args 1))
      (← getRegister line (argN args 2)) (← getRegister line (argN args 3)))
  | ['r', 's', 'h'] => do
    checkArguments args.length ["RegA", "RegC"] line
    return some (.RightShift (← getRegister line (argN args 1))
      (← getRegister line (argN args 2)))
  | ['l', 'd', 'i'] => do
    checkArguments args.length ["RegA", "Immediate"] line
    return some (.LoadImmediate (← getRegister line (argN args 1))
      (← getImmediate line (argN args 2)))
  | ['a', 'd', 'i'] => do
    checkArguments args.length ["RegA", "Immediate"] line
    return some (.AddImmediate (← getRegister line (argN args 1))
      (← getImmediate line (argN args 2)))
  | ['j', 'm', 'p'] => do
    checkArguments args.length ["Label/Address"] line
    return some (.Jump (← getLocation line (argN args 1)))
  | ['b', 'r', 'h'] => do
    checkArguments args.length ["Condition", "Label/Address"] line
    return some (.Branch (← getCondition line (argN args 1))
      (← getLocation line (argN args 2)))
  | ['c', 'a', 'l'] => do
    checkArguments args.length ["Label/Address"] line
    return some (.Call (← getLocation line (argN args 1)))
  | ['r', 'e', 't'] => do
    checkArguments args.length [] line
    return some .Return
  | ['l', 'o', 'd'] => do
    checkArguments args.length ["RegA", "RegB", "Offset"] line
    return some (.MemoryLoad (← getRegister line (argN args 1))
      (← getRegister line (argN args 2)) (← getOffset line (argN args 3)))
  | ['s', 't', 'r'] => do
    checkArguments args.length ["RegA", "RegB", "Offset"] line
    return some (.MemoryStore (← getRegister line (argN args 1))
      (← getRegister line (argN args 2)) (← getOffset line (argN args 3)))
  | ['c', 'm', 'p'] => do
    checkArguments args.length ["RegA", "RegB"] line
    let a ← getRegister line (argN args 1)
    let b ← getRegister line (argN args 2)
    let z ← match Register.new 0 with
      | .ok r => pure r
      | .error e => .error (AssemblerError.new e)
    return some (.Subtraction a b z)
  | ['m', 'o', 'v'] => do
    checkArguments args.length ["RegA", "RegC"] line
    let a ← getRegister line (argN args 1)
    let z ← match Register.new 0 with
      | .ok r => pure r
      | .error e => .error (AssemblerError.new e)
    let c ← getRegister line (argN args 2)
    return some (.Addition a z c)
  | ['l', 's', 'h'] => do
    checkArguments args.length ["RegA", "RegC"] line
    let a ← getRegister line (argN args 1)
    return some (.Addition a a (← getRegister line (argN args 2)))
  | ['i', 'n', 'c'] => do
    checkArguments args.length ["RegA"] line
    return some (.AddImmediate (← getRegister line (argN args 1)) (Immediate.new 1))
  | ['d', 'e', 'c'] => do
    checkArguments args.length ["RegA"] line
    return some (.AddImmediate (← getRegister line (argN args 1)) (Immediate.new_signed (-1)))
  | ['n', 'o', 't'] => do
    checkArguments args.length ["RegA", "RegC"] line
    let a ← getRegister line (argN args 1)
    let z ← match Register.new 0 with
      | .ok r => pure r
      | .error e => .error (AssemblerError.new e)
    return some (.BitwiseNOR a z (← getRegister line (argN args 2)))
  | ['n', 'e', 'g'] => do
    checkArguments args.length ["RegA", "RegC"] line
    let z ← match Register.new 0 with
      | .ok r => pure r
      | .error e => .error (AssemblerError.new e)
    let a ← getRegister line (argN args 1)
    return some (.Subtraction z a (← getRegister line (argN args 2)))
  | _ =>
    .error (AssemblerError.new_line ("Unknown opcode: " ++ String.mk name) line)

/-- One whitespace-delimited token, with a define substituted for it if
the define table holds its exact text (`for i in 0..args.len()` loop of
`parse_piece`). -/
def substDefine (defines : List (Str × Str)) (tok : Str) : Str :=
  (alookup tok defines).getD tok

/-- `Assembler::parse_piece`: split into tokens; a `name:` token defines
a label at the current instruction count; `#define` registers a text
substitution; otherwise every token is define-substituted and the piece
is dispatched on the *original* first token.  Only the label and define
branches change the state. -/
def parsePiece (s : AsmState) (piece : Str) :
    AsmState × Except AssemblerError (Option Instruction) :=
  match splitWhitespace piece with
  | [] =>
    -- unreachable from parse_line: pieces are non-empty, so args[0] exists
    (s, .error (AssemblerError.new_line "Empty statement" s.line))
  | name :: restToks =>
    let args := name :: restToks
    if endsWithChar ':' name then
      match checkArguments args.length [] s.line with
      | .error e => (s, .error e)
      | .ok _ =>
        let labelName := name.dropLast
        if (alookup labelName s.labels).isSome then
          (s, .error (AssemblerError.new_line
            ("Label \"" ++ String.mk labelName ++ "\" was already defined") s.line))
        else
          ({s with labels := (labelName, s.instructions.length) :: s.labels}, .ok none)
    else if name = "#define".toList then
      match checkArguments args.length ["Name", "Value"] s.line with
      | .error e => (s, .error e)
      | .ok _ =>
        match restToks with
        | defineName :: defineValue :: _ =>
          if (alookup defineName s.defines).isSome then
            (s, .error (AssemblerError.new_line
              ("Definition of \"" ++ String.mk defineName ++ "\" already exists") s.line))
          else
            ({s with defines := (defineName, defineValue) :: s.defines}, .ok none)
        | _ =>
          -- unreachable: check_arguments guarantees exactly three tokens
          (s, .error (AssemblerError.new_line "Empty statement" s.line))
    else
      (s, parseInstr s.line name (args.map (substDefine s.defines)))

/-- The lexical splitter of `Assembler::parse_line`: strip the trailing
comment, trim, and split a non-empty line into trimmed `;`-separated
fragments (an empty line yields no fragments). -/
def pieceSplit (l : Str) : List Str :=
  let l := trimStr (truncAtComment l)
  if l = [] then [] else (splitOnChar ';' l).map trimStr

/-- The fragment loop of `Assembler::parse_line`: each empty fragment
reports a `Useless semicolon` error, each non-empty fragment goes through
`parse_piece`; instructions (paired with the current line) and errors are
both accumulated, and a fragment's error never stops the loop. -/
def parsePieces (s : AsmState) : List Str →
    AsmState × List (Instruction × Nat) × List AssemblerError
  | [] => (s, [], [])
  | p :: t =>
    if p = [] then
      let (s', is, es) := parsePieces s t
      (s', is, AssemblerError.new_line "Useless semicolon" s.line :: es)
    else
      match parsePiece s p with
      | (s₁, .ok (some inst)) =>
        let (s', is, es) := parsePieces s₁ t
        (s', (inst, s₁.line) :: is, es)
      | (s₁, .ok none) =>
        let (s', is, es) := parsePieces s₁ t
        (s', is, es)
      | (s₁, .error e) =>
        let (s', is, es) := parsePieces s₁ t
        (s', is, e :: es)

/-- `Assembler::parse_line`: split the line into fragments and parse
them; the parsed instructions are returned only when the line produced
no error (otherwise they are discarded and the errors returned), while
label/define table changes persist either way. -/
def parseLine (s : AsmState) (l : Str) :
    AsmState × Except (List AssemblerError) (List (Instruction × Nat)) :=
  let (s', is, es) := parsePieces s (pieceSplit l)
  if es = [] then (s', .ok is) else (s', .error es)

/-- The line loop of `Assembler::parse`: lines are numbered from 1; an
error-free line appends its instructions to the state, a failing line
contributes its errors; processing always continues. -/
def parseLines (s : AsmState) (idx : Nat) : List Str → AsmState × List AssemblerError
  | [] => (s, [])
  | l :: t =>
    match parseLine {s with line := idx} l with
    | (s₁, .ok is) =>
      parseLines {s₁ with instructions := s₁.instructions ++ is} (idx + 1) t
    | (s₁, .error es) =>
      let (s', es') := parseLines s₁ (idx + 1) t
      (s', es ++ es')

/-- The capacity error pushed by `Assembler::parse` when the program
reaches the maximum size. -/
def capacityError : AssemblerError :=
  AssemblerError.new
    ("Program reached maximum size (" ++ toString addressMaxPossibleCount ++ " instructions)")

/-- `Assembler::parse`: run the line loop, then fail with the capacity
error (appended to the collected list) when the instruction count
exceeds `address::MAX_VALUE`, and otherwise fail exactly when the
collected error list is non-empty. -/
def Assembler.parse (s : AsmState) (input : Str) :
    AsmState × Except (List AssemblerError) Unit :=
  let (s', errors) := parseLines s 1 (linesOf input)
  if s'.instructions.length > addressMaxValue then
    (s', .error (errors ++ [capacityError]))
  else if errors ≠ [] then (s', .error errors)
  else (s', .ok ())

/-- The encode loop of `Assembler::assemble`: each instruction is
encoded at its position; a failure contributes a line-attributed error
(and a placeholder `0` word) without stopping the loop. -/
def assembleGo (addr : Nat) (labels : LabelTable) :
    List (Instruction × Nat) → List Nat × List AssemblerError
  | [] => ([], [])
  | (inst, line) :: t =>
    let (ws, es) := assembleGo (addr + 1) labels t
    match inst.binary addr labels with
    | .ok w => (w :: ws, es)
    | .error e => (0 :: ws, AssemblerError.from_assembly_error_line e line :: es)

/-- `Assembler::assemble`: encode every instruction; return the word
list only when no error was collected, and all collected errors
otherwise. -/
def Assembler.assemble (s : AsmState) : Except (List AssemblerError) (List Nat) :=
  let (ws, es) := assembleGo 0 s.labels s.instructions
  if es ≠ [] then .error es else .ok ws

/-- Rust `format!("{:016b}", instruction)` for a `u16`: sixteen binary
digits, zero padded, most significant first. -/
def fmtBin16 (w : Nat) : Str :=
  (List.range 16).map (fun k => if (w >>> (15 - k)) % 2 = 1 then '1' else '0')

/-- `u16::to_be_bytes`: big-endian byte pair. -/
def toBeBytes (w : Nat) : List Nat :=
  [w / 256 % 256, w % 256]

/-- The text-mode write loop of `Assembler::assemble_to_file`: each word
as sixteen ASCII `0`/`1` bytes, a single `'\n'` byte after every word
except the last. -/
def textModeBytes : List Nat → List Nat
  | [] => []
  | [w] => (fmtBin16 w).map Char.toNat
  | w :: t => (fmtBin16 w).map Char.toNat ++ 10 :: textModeBytes t

/-- The binary-mode write loop of `Assembler::assemble_to_file`: the
big-endian byte pairs of all words, concatenated. -/
def binModeBytes (ws : List Nat) : List Nat :=
  ws.flatMap toBeBytes

/-- `Assembler::assemble_to_file`, modelled as the byte sequence written
to the output file: text mode or binary mode per the configuration, and
the collected assembly errors when `assemble` fails. -/
def assembleToFileBytes (s : AsmState) : Except (List AssemblerError) (List Nat) :=
  match Assembler.assemble s with
  | .ok machineCode =>
    .ok (if s.config.text_output then textModeBytes machineCode else binModeBytes machineCode)
  | .error errors => .error errors

deriving instance DecidableEq for Except

/-- Statement apparatus (not from the source): the digit character for
one digit value, lowercase for 10-35. -/
def natDigitChar (n : Nat) : Char :=
  if n < 10 then Char.ofNat (48 + n) else Char.ofNat (87 + n)

/-- Statement apparatus: digit string of `n` in a base, with explicit
fuel so that evaluation is structural (16 digits cover every value the
immediate claims quantify over). -/
def natDigitsGo (base : Nat) : Nat → Nat → Str
  | 0, _ => []
  | fuel + 1, n =>
    if n < base then [natDigitChar n]
    else natDigitsGo base fuel (n / base) ++ [natDigitChar (n % base)]

/-- Statement apparatus: the base-`base` spelling of `n`. -/
def natDigits (base n : Nat) : Str := natDigitsGo base 16 n

/-- Statement apparatus: the decimal spelling of an integer. -/
def decSpelling (v : Int) : Str :=
  if v < 0 then '-' :: natDigits 10 (-v).toNat else natDigits 10 v.toNat

/-- Statement apparatus: the `0x` hexadecimal spelling of `n`. -/
def hexSpelling (n : Nat) : Str := '0' :: 'x' :: natDigits 16 n

/-- Statement apparatus: the `0b` binary spelling of `n`. -/
def binSpelling (n : Nat) : Str := '0' :: 'b' :: natDigits 2 n

/-! ## Helper lemmas -/

/-- Disjoint-field packing: when the low `i` bits are clear, bitwise or
is addition. -/
theorem or_shift_add (a : Nat) {i b : Nat} (h : b < 2 ^ i) :
    (a <<< i) ||| b = a * 2 ^ i + b := by
  induction i generalizing b with
  | zero =>
    have hb : b = 0 := Nat.lt_one_iff.mp h
    simp [hb]
  | succ i ih =>
    have hb2 : b / 2 < 2 ^ i := by
      have h2 : b < 2 ^ i * 2 := by rw [Nat.pow_succ] at h; omega
      omega
    have hX : a <<< (i + 1) = 2 * (a <<< i) := Nat.shiftLeft_succ a i
    have hdiv : ((a <<< (i + 1)) ||| b) / 2 = (a <<< i) ||| (b / 2) := by
      rw [Nat.or_div_two, hX, Nat.mul_div_cancel_left _ (by decide)]
    have hXmod : (a <<< (i + 1)) % 2 = 0 := by
      rw [hX]; omega
    have hmod : ((a <<< (i + 1)) ||| b) % 2 = b % 2 := by
      rcases Nat.mod_two_eq_zero_or_one b with hb | hb
      · rcases Nat.mod_two_eq_zero_or_one ((a <<< (i + 1)) ||| b) with hx | hx
        · omega
        · rcases Nat.or_mod_two_eq_one.mp hx with h1 | h1 <;> omega
      · rw [hb]; exact Nat.or_mod_two_eq_one.mpr (Or.inr hb)
    have := Nat.div_add_mod ((a <<< (i + 1)) ||| b) 2
    calc (a <<< (i + 1)) ||| b
        = 2 * (((a <<< (i + 1)) ||| b) / 2) + ((a <<< (i + 1)) ||| b) % 2 := by omega
      _ = 2 * ((a <<< i) ||| (b / 2)) + b % 2 := by rw [hdiv, hmod]
      _ = 2 * (a * 2 ^ i + b / 2) + b % 2 := by rw [ih hb2]
      _ = a * 2 ^ (i + 1) + b := by
          rw [Nat.pow_succ]
          have := Nat.div_add_mod b 2
          ring_nf
          omega

/-- Reading the opcode field back out of a packed word. -/
theorem or_shift12_shiftRight {x r : Nat} (h : r < 4096) :
    ((x <<< 12) ||| r) >>> 12 = x := by
  rw [or_shift_add x (show r < 2 ^ 12 from h), Nat.shiftRight_eq_div_pow]
  rw [Nat.mul_comm x (2 ^ 12), Nat.mul_add_div (by decide)]
  rw [Nat.div_eq_of_lt (show r < 2 ^ 12 from h)]
  omega

/-- A 4-bit-masked value is below 16. -/
theorem and15_lt (x : Nat) : x &&& 15 < 16 :=
  Nat.and_lt_two_pow x (show (15 : Nat) < 2 ^ 4 by decide)

/-- A 10-bit-masked value is below 1024. -/
theorem and1023_lt (x : Nat) : x &&& 1023 < 1024 :=
  Nat.and_lt_two_pow x (show (1023 : Nat) < 2 ^ 10 by decide)

/-- An 8-bit-masked value is below 256. -/
theorem and255_lt (x : Nat) : x &&& 255 < 256 :=
  Nat.and_lt_two_pow x (show (255 : Nat) < 2 ^ 8 by decide)

/-- A 2-bit-masked value is below 4. -/
theorem and3_lt (x : Nat) : x &&& 3 < 4 :=
  Nat.and_lt_two_pow x (show (3 : Nat) < 2 ^ 2 by decide)

/-- Every encoded word has the shape `opcode-index <<< 12 ||| low`, with
the low part inside the 12 field bits. -/
theorem binary_shape (inst : Instruction) (addr : Nat) (labels : LabelTable) {w : Nat}
    (h : inst.binary addr labels = .ok w) :
    ∃ r, r < 4096 ∧ w = ((inst.index &&& 15) <<< 12) ||| r := by
  have pack3 : ∀ a b c : Register,
      ((a.val &&& 15) <<< 8) ||| ((b.val &&& 15) <<< 4) ||| (c.val &&& 15) < 4096 := by
    intro a b c
    apply Nat.or_lt_two_pow (n := 12)
    · apply Nat.or_lt_two_pow (n := 12)
      · rw [Nat.shiftLeft_eq]
        have := and15_lt a.val
        omega
      · rw [Nat.shiftLeft_eq]
        have := and15_lt b.val
        omega
    · have := and15_lt c.val
      omega
  have packImm : ∀ (a : Register) (i : Immediate),
      ((a.val &&& 15) <<< 8) ||| i.field < 4096 := by
    intro a i
    apply Nat.or_lt_two_pow (n := 12)
    · rw [Nat.shiftLeft_eq]
      have := and15_lt a.val
      omega
    · have := and255_lt ((i.val % 65536).toNat)
      show (i.val % 65536).toNat &&& 255 < 2 ^ 12
      omega
  cases inst with
  | NoOperation =>
    refine ⟨0, by decide, ?_⟩
    simp only [Instruction.binary, Except.ok.injEq] at h
    simp [← h]
  | Halt =>
    refine ⟨0, by decide, ?_⟩
    simp only [Instruction.binary, Except.ok.injEq] at h
    simp [← h]
  | Return =>
    refine ⟨0, by decide, ?_⟩
    simp only [Instruction.binary, Except.ok.injEq] at h
    simp [← h]
  | Addition a b c =>
    refine ⟨_, pack3 a b c, ?_⟩
    simp only [Instruction.binary, Except.ok.injEq] at h
    rw [← h]; simp [Nat.or_assoc]
  | Subtraction a b c =>
    refine ⟨_, pack3 a b c, ?_⟩
    simp only [Instruction.binary, Except.ok.injEq] at h
    rw [← h]; simp [Nat.or_assoc]
  | BitwiseNOR a b c =>
    refine ⟨_, pack3 a b c, ?_⟩
    simp only [Instruction.binary, Except.ok.injEq] at h
    rw [← h]; simp [Nat.or_assoc]
  | BitwiseAND a b c =>
    refine ⟨_, pack3 a b c, ?_⟩
    simp only [Instruction.binary, Except.ok.injEq] at h
    rw [← h]; simp [Nat.or_assoc]
  | BitwiseXOR a b c =>
    refine ⟨_, pack3 a b c, ?_⟩
    simp only [Instruction.binary, Except.ok.injEq] at h
    rw [← h]; simp [Nat.or_assoc]
  | RightShift a c =>
    refine ⟨((a.val &&& 15) <<< 8) ||| (c.val &&& 15), ?_, ?_⟩
    · apply Nat.or_lt_two_pow (n := 12)
      · rw [Nat.shiftLeft_eq]
        have := and15_lt a.val
        omega
      · have := and15_lt c.val
        omega
    · simp only [Instruction.binary, Except.ok.injEq] at h
      rw [← h]; simp [Nat.or_assoc]
  | LoadImmediate a i =>
    refine ⟨_, packImm a i, ?_⟩
    simp only [Instruction.binary, Except.ok.injEq] at h
    rw [← h]; simp [Nat.or_assoc]
  | AddImmediate a i =>
    refine ⟨_, packImm a i, ?_⟩
    simp only [Instruction.binary, Except.ok.injEq] at h
    rw [← h]; simp [Nat.or_assoc]
  | Jump l =>
    cases hga : l.get_address addr labels with
    | ok a =>
      simp only [Instruction.binary, hga, Except.ok.injEq] at h
      refine ⟨(a % 65536) &&& 1023, ?_, by rw [← h]⟩
      have := and1023_lt (a % 65536)
      omega
    | error e => simp only [Instruction.binary, hga] at h; exact absurd h (by simp)
  | Call l =>
    cases hga : l.get_address addr labels with
    | ok a =>
      simp only [Instruction.binary, hga, Except.ok.injEq] at h
      refine ⟨(a % 65536) &&& 1023, ?_, by rw [← h]⟩
      have := and1023_lt (a % 65536)
      omega
    | error e => simp only [Instruction.binary, hga] at h; exact absurd h (by simp)
  | Branch c l =>
    cases hga : l.get_address addr labels with
    | ok a =>
      simp only [Instruction.binary, hga, Except.ok.injEq] at h
      refine ⟨((c.index &&& 3) <<< 10) ||| ((a % 65536) &&& 1023), ?_, ?_⟩
      · apply Nat.or_lt_two_pow (n := 12)
        · rw [Nat.shiftLeft_eq]
          have := and3_lt c.index
          omega
        · have := and1023_lt (a % 65536)
          omega
      · rw [← h]; simp [Nat.or_assoc]
    | error e => simp only [Instruction.binary, hga] at h; exact absurd h (by simp)
  | MemoryLoad a b o =>
    refine ⟨((a.val &&& 15) <<< 8) ||| ((b.val &&& 15) <<< 4) |||
      ((o.val % 65536).toNat &&& 15), ?_, ?_⟩
    · apply Nat.or_lt_two_pow (n := 12)
      · apply Nat.or_lt_two_pow (n := 12)
        · rw [Nat.shiftLeft_eq]
          have := and15_lt a.val
          omega
        · rw [Nat.shiftLeft_eq]
          have := and15_lt b.val
          omega
      · have := and15_lt ((o.val % 65536).toNat)
        omega
    · simp only [Instruction.binary, Except.ok.injEq] at h
      rw [← h]; simp [Nat.or_assoc]
  | MemoryStore a b o =>
    refine ⟨((a.val &&& 15) <<< 8) ||| ((b.val &&& 15) <<< 4) |||
      ((o.val % 65536).toNat &&& 15), ?_, ?_⟩
    · apply Nat.or_lt_two_pow (n := 12)
      · apply Nat.or_lt_two_pow (n := 12)
        · rw [Nat.shiftLeft_eq]
          have := and15_lt a.val
          omega
        · rw [Nat.shiftLeft_eq]
          have := and15_lt b.val
          omega
      · have := and15_lt ((o.val % 65536).toNat)
        omega
    · simp only [Instruction.binary, Except.ok.injEq] at h
      rw [← h]; simp [Nat.or_assoc]

/-- The opcode index of every variant is below 16. -/
theorem index_lt_16 (inst : Instruction) : inst.index < 16 := by
  cases inst <;> simp only [Instruction.index] <;> decide

/-- Every encoded word fits in 16 bits. -/
theorem binary_lt_65536 (inst : Instruction) (addr : Nat) (labels : LabelTable) {w : Nat}
    (h : inst.binary addr labels = .ok w) : w < 65536 := by
  obtain ⟨r, hr, hw⟩ := binary_shape inst addr labels h
  rw [hw]
  apply Nat.or_lt_two_pow (n := 16)
  · rw [Nat.shiftLeft_eq]
    have := and15_lt inst.index
    omega
  · omega

/-- A masked opcode index is the index itself. -/
theorem index_and_15 (inst : Instruction) : inst.index &&& 15 = inst.index := by
  cases inst <;> simp only [Instruction.index] <;> decide

/-- C5: encoding `nop` yields the all-zero word and `hlt` the word with
only opcode field 1 (bits 15..12); every successfully encoded word fits
in 16 bits and carries the variant's 4-bit opcode index in its top four
bits. -/
theorem opcode_in_top_four_bits :
    (∀ addr labels, Instruction.binary .NoOperation addr labels = .ok 0) ∧
    (∀ addr labels, Instruction.binary .Halt addr labels = .ok 4096) ∧
    (∀ (inst : Instruction) (addr : Nat) (labels : LabelTable) (w : Nat),
      inst.binary addr labels = .ok w → w < 65536 ∧ w >>> 12 = inst.index) := by
  refine ⟨fun addr labels => rfl, fun addr labels => rfl, ?_⟩
  intro inst addr labels w h
  refine ⟨binary_lt_65536 inst addr labels h, ?_⟩
  obtain ⟨r, hr, hw⟩ := binary_shape inst addr labels h
  rw [hw, or_shift12_shiftRight hr, index_and_15]

/-- Witness for C5 at a concrete instruction: `ret` encodes to
`13 <<< 12 = 53248`. -/
theorem opcode_in_top_four_bits_witness :
    Instruction.binary .Return 0 [] = .ok 53248 ∧
    53248 < 65536 ∧ 53248 >>> 12 = Instruction.Return.index := by
  exact ⟨by decide, opcode_in_top_four_bits.2.2 .Return 0 [] 53248 (by decide)⟩

/-- C10: `Ord for AssemblerError` compares only the optional line
number: unnumbered errors sort strictly before every numbered error,
equal lines compare `Equal` whatever the descriptions (so `cmp` can
return `Equal` where `==` is `false`), and numbered errors compare by
line number. -/
theorem assembler_error_ord_ignores_description :
    (∀ d d' n, AssemblerError.cmp ⟨d, none⟩ ⟨d', some n⟩ = .lt) ∧
    (∀ d d' n, AssemblerError.cmp ⟨d, some n⟩ ⟨d', none⟩ = .gt) ∧
    (∀ d d' (l : Option Nat), AssemblerError.cmp ⟨d, l⟩ ⟨d', l⟩ = .eq) ∧
    (∀ d d' n m, AssemblerError.cmp ⟨d, some n⟩ ⟨d', some m⟩ = compare n m) ∧
    (AssemblerError.cmp ⟨"a", some 1⟩ ⟨"b", some 1⟩ = .eq ∧
      AssemblerError.beq ⟨"a", some 1⟩ ⟨"b", some 1⟩ = false) := by
  refine ⟨fun d d' n => rfl, fun d d' n => rfl, ?_, fun d d' n m => rfl, by decide, by decide⟩
  intro d d' l
  cases l with
  | none => rfl
  | some n => simp [AssemblerError.cmp, optNatCmp, Nat.compare_eq_eq]

/-- C8: a statement defining an already-present label is rejected by
`parse_piece` with an error and leaves the state — in particular the
index recorded at the first definition — unchanged. -/
theorem duplicate_label_keeps_first :
    ∀ (s : AsmState) (piece name : Str) (a : Nat),
      splitWhitespace piece = [name] →
      endsWithChar ':' name = true →
      alookup name.dropLast s.labels = some a →
      parsePiece s piece =
        (s, .error (AssemblerError.new_line
          ("Label \"" ++ String.mk name.dropLast ++ "\" was already defined") s.line)) ∧
      alookup name.dropLast (parsePiece s piece).1.labels = some a := by
  intro s piece name a hsplit hend hdup
  have hp : parsePiece s piece =
      (s, .error (AssemblerError.new_line
        ("Label \"" ++ String.mk name.dropLast ++ "\" was already defined") s.line)) := by
    unfold parsePiece
    rw [hsplit]
    simp only [hend, if_true, List.length_cons, List.length_nil, checkArguments, hdup]
    simp [checkArguments]
  exact ⟨hp, by rw [hp]; exact hdup⟩

/-- Witness for C8: redefining `L` with `L` already at index 3. -/
theorem duplicate_label_keeps_first_witness :
    parsePiece ⟨AssemblerConfig.default, [], [("L".toList, 3)], [], 7⟩ ("L:".toList) =
      (⟨AssemblerConfig.default, [], [("L".toList, 3)], [], 7⟩,
        .error (AssemblerError.new_line "Label \"L\" was already defined" 7)) ∧
    alookup "L".toList
      (parsePiece ⟨AssemblerConfig.default, [], [("L".toList, 3)], [], 7⟩ ("L:".toList)).1.labels =
      some 3 := by
  have h := duplicate_label_keeps_first
    ⟨AssemblerConfig.default, [], [("L".toList, 3)], [], 7⟩
    ("L:".toList) ("L:".toList) 3 (by decide) (by decide) (by decide)
  exact h

/-- A lookup misses when no key's first character matches. -/
theorem alookup_eq_none_of_head_ne {α : Type} (k : Str) (l : List (Str × α))
    (h : ∀ p ∈ l, p.1.head? ≠ k.head?) : alookup k l = none := by
  induction l with
  | nil => rfl
  | cons p t ih =>
    rw [alookup]
    have hne : p.1 ≠ k := fun he => h p (by simp) (by rw [he])
    rw [if_neg hne]
    exact ih (fun q hq => h q (by simp [hq]))

/-- No built-in define key starts with a lowercase character, so tokens
starting with one (register tokens, mnemonics) are never substituted. -/
theorem alookup_defaultDefines_lowercase (c : Char) (t : Str) (h : 97 ≤ c.toNat) :
    alookup (c :: t) defaultDefines = none := by
  apply alookup_eq_none_of_head_ne
  intro p hp
  have hhead : p.1.head? = some 'S' ∨ p.1.head? = some 'C' ∨
      p.1.head? = some 'N' ∨ p.1.head? = some 'R' := by
    fin_cases hp <;> simp [defaultDefines]
  have hc : ∀ u : Char, u.toNat < 97 → some u ≠ (c :: t).head? := by
    intro u hu he
    simp only [List.head?] at he
    have := congrArg (fun o => (Option.getD o ' ').toNat) he
    simp at this
    omega
  rcases hhead with h1 | h1 | h1 | h1 <;> rw [h1] <;> exact hc _ (by decide)

/-- A successfully parsed register token starts with `r`, hence is
lowercase-headed. -/
theorem getRegister_token_head {line : Nat} {t : Str} {r : Register}
    (h : getRegister line t = .ok r) : t.head? = some 'r' := by
  by_cases hh : t.head? = some 'r'
  · exact hh
  · rw [getRegister, if_neg hh] at h
    exact absurd h (by simp)

/-- In a freshly created assembler, lowercase-headed tokens are left
alone by define substitution. -/
theorem substDefine_new_lowercase (cfg : AssemblerConfig) (c : Char) (t : Str)
    (h : 97 ≤ c.toNat) : substDefine (Assembler.new cfg).defines (c :: t) = c :: t := by
  rw [substDefine, Assembler.new]
  by_cases hd : cfg.default_defines <;>
    simp [hd, alookup_defaultDefines_lowercase c t h, alookup]

/-- `Except`'s bind on a success. -/
theorem except_bind_ok {ε α β : Type} (a : α) (f : α → Except ε β) :
    (Except.ok a >>= f) = f a := rfl

/-- `Except`'s bind on a failure. -/
theorem except_bind_error {ε α β : Type} (e : ε) (f : α → Except ε β) :
    ((Except.error e : Except ε α) >>= f) = Except.error e := rfl

/-- A non-directive statement is dispatched on its unsubstituted first
token, with the substituted token vector, and leaves the state
untouched. -/
theorem parsePiece_dispatch (s : AsmState) (piece name : Str) (rest : List Str)
    (hsplit : splitWhitespace piece = name :: rest)
    (hcolon : endsWithChar ':' name = false)
    (hdef : name ≠ "#define".toList) :
    parsePiece s piece =
      (s, parseInstr s.line name ((name :: rest).map (substDefine s.defines))) := by
  unfold parsePiece
  rw [hsplit]
  have hdef2 : ¬ (name = ['#', 'd', 'e', 'f', 'i', 'n', 'e']) := by simpa using hdef
  simp [hcolon, hdef2]

/-- Lowercase-headed tokens (by their head character) survive
substitution in a fresh assembler. -/
theorem substDefine_new_head (cfg : AssemblerConfig) {tok : Str} {c : Char}
    (h : tok.head? = some c) (hc : 97 ≤ c.toNat) :
    substDefine (Assembler.new cfg).defines tok = tok := by
  cases tok with
  | nil => simp at h
  | cons d t =>
    simp only [List.head?, Option.some.injEq] at h
    subst h
    exact substDefine_new_lowercase cfg d t hc

/-- The `cmp` arm of the dispatch with its arguments in place: the
destination is the synthesized register 0. -/
theorem parseInstr_cmp_eq (line : Nat) (t a b : Str) :
    parseInstr line ['c', 'm', 'p'] [t, a, b] =
      (getRegister line a >>= fun x => getRegister line b >>= fun y =>
        pure (some (.Subtraction x y ⟨0⟩))) := rfl

/-- The `sub` arm of the dispatch with its arguments in place. -/
theorem parseInstr_sub_eq (line : Nat) (t a b c : Str) :
    parseInstr line ['s', 'u', 'b'] [t, a, b, c] =
      (getRegister line a >>= fun x => getRegister line b >>= fun y =>
        getRegister line c >>= fun z => pure (some (.Subtraction x y z))) := rfl

/-- The `mov` arm of the dispatch with its arguments in place: the
source-B operand is the synthesized register 0. -/
theorem parseInstr_mov_eq (line : Nat) (t a c : Str) :
    parseInstr line ['m', 'o', 'v'] [t, a, c] =
      (getRegister line a >>= fun x => getRegister line c >>= fun z =>
        pure (some (.Addition x ⟨0⟩ z))) := rfl

/-- The `add` arm of the dispatch with its arguments in place. -/
theorem parseInstr_add_eq (line : Nat) (t a b c : Str) :
    parseInstr line ['a', 'd', 'd'] [t, a, b, c] =
      (getRegister line a >>= fun x => getRegister line b >>= fun y =>
        getRegister line c >>= fun z => pure (some (.Addition x y z))) := rfl

/-- C3: for all valid register tokens, `cmp a b` parses to the same
instruction as `sub a b r0`, and `mov a c` to the same instruction as
`add a r0 c` (hence they encode to the same 16-bit words). -/
theorem sugar_cmp_mov_equivalence :
    ∀ (cfg : AssemblerConfig) (pc ps pm pa a b c : Str) (ra rb rc : Register),
      splitWhitespace pc = [['c', 'm', 'p'], a, b] →
      splitWhitespace ps = [['s', 'u', 'b'], a, b, ['r', '0']] →
      splitWhitespace pm = [['m', 'o', 'v'], a, c] →
      splitWhitespace pa = [['a', 'd', 'd'], a, ['r', '0'], c] →
      getRegister 0 a = .ok ra →
      getRegister 0 b = .ok rb →
      getRegister 0 c = .ok rc →
      ((parsePiece (Assembler.new cfg) pc).2 = (parsePiece (Assembler.new cfg) ps).2 ∧
        (parsePiece (Assembler.new cfg) pc).2 = .ok (some (.Subtraction ra rb ⟨0⟩))) ∧
      ((parsePiece (Assembler.new cfg) pm).2 = (parsePiece (Assembler.new cfg) pa).2 ∧
        (parsePiece (Assembler.new cfg) pm).2 = .ok (some (.Addition ra ⟨0⟩ rc))) := by
  intro cfg pc ps pm pa a b c ra rb rc hpc hps hpm hpa ha hb hc
  have hsa := substDefine_new_head cfg (getRegister_token_head ha) (by decide)
  have hsb := substDefine_new_head cfg (getRegister_token_head hb) (by decide)
  have hsc := substDefine_new_head cfg (getRegister_token_head hc) (by decide)
  have hscmp := substDefine_new_lowercase cfg 'c' ['m', 'p'] (by decide)
  have hssub := substDefine_new_lowercase cfg 's' ['u', 'b'] (by decide)
  have hsmov := substDefine_new_lowercase cfg 'm' ['o', 'v'] (by decide)
  have hsadd := substDefine_new_lowercase cfg 'a' ['d', 'd'] (by decide)
  have hsr0 := substDefine_new_lowercase cfg 'r' ['0'] (by decide)
  have hr0 : getRegister 0 ['r', '0'] = .ok ⟨0⟩ := by decide
  have hcmp : (parsePiece (Assembler.new cfg) pc).2 = .ok (some (.Subtraction ra rb ⟨0⟩)) := by
    rw [parsePiece_dispatch _ _ _ _ hpc (by decide) (by decide)]
    simp only [List.map_cons, List.map_nil, hsa, hsb, hscmp]
    rw [parseInstr_cmp_eq]
    simp [Assembler.new, ha, hb, except_bind_ok]
  have hsubp : (parsePiece (Assembler.new cfg) ps).2 = .ok (some (.Subtraction ra rb ⟨0⟩)) := by
    rw [parsePiece_dispatch _ _ _ _ hps (by decide) (by decide)]
    simp only [List.map_cons, List.map_nil, hsa, hsb, hssub, hsr0]
    rw [parseInstr_sub_eq]
    simp [Assembler.new, ha, hb, hr0, except_bind_ok]
  have hmov : (parsePiece (Assembler.new cfg) pm).2 = .ok (some (.Addition ra ⟨0⟩ rc)) := by
    rw [parsePiece_dispatch _ _ _ _ hpm (by decide) (by decide)]
    simp only [List.map_cons, List.map_nil, hsa, hsc, hsmov]
    rw [parseInstr_mov_eq]
    simp [Assembler.new, ha, hc, except_bind_ok]
  have haddp : (parsePiece (Assembler.new cfg) pa).2 = .ok (some (.Addition ra ⟨0⟩ rc)) := by
    rw [parsePiece_dispatch _ _ _ _ hpa (by decide) (by decide)]
    simp only [List.map_cons, List.map_nil, hsa, hsc, hsadd, hsr0]
    rw [parseInstr_add_eq]
    simp [Assembler.new, ha, hc, hr0, except_bind_ok]
  exact ⟨⟨hcmp.trans hsubp.symm, hcmp⟩, ⟨hmov.trans haddp.symm, hmov⟩⟩

/-- Witness for C3 at `r1`, `r2`: `cmp r1 r2` ≡ `sub r1 r2 r0` and
`mov r1 r2` ≡ `add r1 r0 r2`. -/
theorem sugar_cmp_mov_equivalence_witness :
    ((parsePiece (Assembler.new AssemblerConfig.default) "cmp r1 r2".toList).2 =
      (parsePiece (Assembler.new AssemblerConfig.default) "sub r1 r2 r0".toList).2 ∧
     (parsePiece (Assembler.new AssemblerConfig.default) "cmp r1 r2".toList).2 =
      .ok (some (.Subtraction ⟨1⟩ ⟨2⟩ ⟨0⟩))) ∧
    ((parsePiece (Assembler.new AssemblerConfig.default) "mov r1 r2".toList).2 =
      (parsePiece (Assembler.new AssemblerConfig.default) "add r1 r0 r2".toList).2 ∧
     (parsePiece (Assembler.new AssemblerConfig.default) "mov r1 r2".toList).2 =
      .ok (some (.Addition ⟨1⟩ ⟨0⟩ ⟨2⟩))) :=
  sugar_cmp_mov_equivalence AssemblerConfig.default
    "cmp r1 r2".toList "sub r1 r2 r0".toList "mov r1 r2".toList "add r1 r0 r2".toList
    ['r', '1'] ['r', '2'] ['r', '2'] ⟨1⟩ ⟨2⟩ ⟨2⟩
    (by decide) (by decide) (by decide) (by decide) (by decide) (by decide) (by decide)

set_option maxRecDepth 40000

/-- C6: every integer in the immediate's −128…255 range parses through
`get_immediate` to the same `Immediate` from its decimal spelling, and
(for the non-negative values expressible in those notations) from its
`0x` and `0b` spellings; `_` separators are stripped before parsing, so
any two tokens equal after stripping parse alike; one past either
boundary fails. -/
theorem immediate_radix_spellings :
    (∀ n : Nat, n < 384 →
      getImmediate 0 (decSpelling ((n : Int) - 128)) =
        .ok (Immediate.new_signed ((n : Int) - 128))) ∧
    (∀ n : Nat, n < 256 →
      getImmediate 0 (hexSpelling n) = .ok (Immediate.new_signed (n : Int)) ∧
      getImmediate 0 (binSpelling n) = .ok (Immediate.new_signed (n : Int))) ∧
    (∀ u t : Str, u.head? ≠ some (Char.ofNat 39) → t.head? ≠ some (Char.ofNat 39) →
      u.filter (fun c => c ≠ '_') = t.filter (fun c => c ≠ '_') →
      parse_i32 u = parse_i32 t ∧
      (∀ i : Immediate, getImmediate 0 u = .ok i ↔ getImmediate 0 t = .ok i)) ∧
    (getImmediate 0 "256".toList =
      .error (AssemblerError.new_line "Immediate 256 out of range, expected -128-255" 0) ∧
     getImmediate 0 "-129".toList =
      .error (AssemblerError.new_line "Immediate -129 out of range, expected -128-255" 0) ∧
     getImmediate 0 "0x100".toList =
      .error (AssemblerError.new_line "Immediate 0x100 out of range, expected -128-255" 0) ∧
     getImmediate 0 "0b100000000".toList =
      .error (AssemblerError.new_line "Immediate 0b100000000 out of range, expected -128-255" 0)) := by
  refine ⟨by decide, by decide, ?_, by decide, by decide, by decide, by decide⟩
  intro u t hu ht hfilt
  have hp : parse_i32 u = parse_i32 t := by
    unfold parse_i32
    rw [hfilt]
  refine ⟨hp, ?_⟩
  intro i
  unfold getImmediate
  rw [if_neg hu, if_neg ht, hp]
  cases hv : parse_i32 t with
  | ok num =>
    by_cases hr : num < -128 || num > 255
    · simp [hr]
    · simp [hr]
  | error e => simp

/-- Witness for C6 at `127`/`255`: spellings parse to the stated
immediates and `_` separators do not change the parse. -/
theorem immediate_radix_spellings_witness :
    getImmediate 0 (decSpelling (((255 : Nat) : Int) - 128)) =
      .ok (Immediate.new_signed (((255 : Nat) : Int) - 128)) ∧
    getImmediate 0 (hexSpelling 255) = .ok (Immediate.new_signed ((255 : Nat) : Int)) ∧
    parse_i32 "2_5_5".toList = parse_i32 "255".toList := by
  have h := immediate_radix_spellings
  exact ⟨h.1 255 (by decide), (h.2.1 255 (by decide)).1,
    (h.2.2.1 "2_5_5".toList "255".toList (by decide) (by decide) (by decide)).1⟩

/-- The text rendering of one word is sixteen characters. -/
theorem fmtBin16_length (w : Nat) : (fmtBin16 w).length = 16 := by
  simp [fmtBin16]

/-- The text rendering of one word uses only `0` and `1`. -/
theorem fmtBin16_chars (w : Nat) : ∀ c ∈ fmtBin16 w, c = '0' ∨ c = '1' := by
  intro c hc
  simp only [fmtBin16, List.mem_map] at hc
  obtain ⟨k, _, hk⟩ := hc
  by_cases h : (w >>> (15 - k)) % 2 = 1 <;> simp [h] at hk <;> simp [← hk]

/-- The text-mode write loop emits exactly the words' renderings joined
by single newline bytes (none after the last word). -/
theorem textModeBytes_intercalate (ws : List Nat) :
    textModeBytes ws = ((ws.map (fun w => (fmtBin16 w).map Char.toNat)).intersperse [10]).flatten := by
  induction ws with
  | nil => rfl
  | cons w t ih =>
    cases t with
    | nil => simp [textModeBytes, List.intersperse]
    | cons w' t' =>
      rw [textModeBytes]
      rw [ih]
      simp [List.intersperse]
      intro h
      exact absurd h (by simp)

/-- Every word produced by the encode loop fits in 16 bits. -/
theorem assembleGo_words_lt (labels : LabelTable) :
    ∀ (l : List (Instruction × Nat)) (addr : Nat),
      ∀ w ∈ (assembleGo addr labels l).1, w < 65536 := by
  intro l
  induction l with
  | nil => intro addr w hw; simp [assembleGo] at hw
  | cons p t ih =>
    intro addr w hw
    obtain ⟨inst, line⟩ := p
    rw [assembleGo] at hw
    cases hb : inst.binary addr labels with
    | ok v =>
      rw [hb] at hw
      simp only [List.mem_cons] at hw
      rcases hw with h | h
      · rw [h]; exact binary_lt_65536 inst addr labels hb
      · exact ih (addr + 1) w h
    | error e =>
      rw [hb] at hw
      simp only [List.mem_cons] at hw
      rcases hw with h | h
      · omega
      · exact ih (addr + 1) w h

/-- C7: for a successfully assembled one-instruction program the text
serialization is exactly sixteen ASCII `0`/`1` bytes with no newline,
and the binary serialization is exactly the two big-endian bytes of the
word; in general, text mode joins the words' sixteen-character
renderings with single newline bytes (none after the last) and binary
mode emits two bytes per word, most significant first. -/
theorem output_serialization :
    (∀ (s : AsmState) (w : Nat), Assembler.assemble s = .ok [w] →
      (s.config.text_output = true →
        assembleToFileBytes s = .ok ((fmtBin16 w).map Char.toNat) ∧
        ((fmtBin16 w).map Char.toNat).length = 16 ∧
        (∀ b ∈ (fmtBin16 w).map Char.toNat, b = 48 ∨ b = 49)) ∧
      (s.config.text_output = false →
        assembleToFileBytes s = .ok [w / 256 % 256, w % 256] ∧
        [w / 256 % 256, w % 256].length = 2 ∧
        256 * (w / 256 % 256) + w % 256 = w)) ∧
    (∀ ws : List Nat, textModeBytes ws =
      ((ws.map (fun w => (fmtBin16 w).map Char.toNat)).intersperse [10]).flatten) ∧
    (∀ ws : List Nat, (binModeBytes ws).length = 2 * ws.length) := by
  refine ⟨?_, textModeBytes_intercalate, ?_⟩
  · intro s w hok
    have hwlt : w < 65536 := by
      apply assembleGo_words_lt s.labels s.instructions 0
      unfold Assembler.assemble at hok
      by_cases he : (assembleGo 0 s.labels s.instructions).2 = []
      · simp only [he, if_neg] at hok
        simp at hok
        rw [hok]
        simp
      · simp [he] at hok
    constructor
    · intro htext
      refine ⟨?_, by simp [fmtBin16_length], ?_⟩
      · unfold assembleToFileBytes
        rw [hok, htext]
        rfl
      · intro b hb
        simp only [List.mem_map] at hb
        obtain ⟨c, hc, hbc⟩ := hb
        rcases fmtBin16_chars w c hc with h | h <;> rw [← hbc, h] <;> simp [Char.toNat]
    · intro htext
      refine ⟨?_, rfl, by omega⟩
      unfold assembleToFileBytes
      rw [hok, htext]
      rfl
  · intro ws
    induction ws with
    | nil => rfl
    | cons w t ih =>
      simp only [binModeBytes, List.flatMap_cons] at ih ⊢
      simp [toBeBytes, ih]
      omega

/-- Witness for C7: the one-instruction program `hlt`, in text mode and
in binary mode. -/
theorem output_serialization_witness :
    assembleToFileBytes (Assembler.parse (Assembler.new ⟨false, false, true⟩) "hlt".toList).1 =
      .ok ((fmtBin16 4096).map Char.toNat) ∧
    ((fmtBin16 4096).map Char.toNat).length = 16 ∧
    assembleToFileBytes (Assembler.parse (Assembler.new ⟨false, false, false⟩) "hlt".toList).1 =
      .ok [16, 0] := by
  have h1 := (output_serialization.1
    (Assembler.parse (Assembler.new ⟨false, false, true⟩) "hlt".toList).1 4096
    (by decide)).1 (by decide)
  have h2 := (output_serialization.1
    (Assembler.parse (Assembler.new ⟨false, false, false⟩) "hlt".toList).1 4096
    (by decide)).2 (by decide)
  exact ⟨h1.1, h1.2.1, h2.1.trans (by decide)⟩

/-- C9 counterexample: with `#define nop hlt` in force, the statement
`nop` still parses to `NoOperation` — the define does *not* change which
instruction is selected, because `parse_piece` captures `name = args[0]`
before the substitution loop rewrites `args`. -/
theorem define_mnemonic_dispatch_counterexample :
    (Assembler.parse (Assembler.new ⟨false, false, false⟩)
        "#define nop hlt\nnop".toList).1.instructions = [(.NoOperation, 2)] ∧
    ¬ (Assembler.parse (Assembler.new ⟨false, false, false⟩)
        "#define nop hlt\nnop".toList).1.instructions = [(.Halt, 2)] := by
  refine ⟨by decide, by decide⟩

/-- C9 (amended): directives are recognized on the raw first token
before any substitution and record raw tokens; for other statements the
whole token vector (position 0 included) is define-substituted, but the
dispatch uses the first token as captured before substitution, so a
define named like a mnemonic never changes the selected instruction. -/
theorem define_substitution_structure :
    (∀ (s : AsmState) (piece name : Str),
      splitWhitespace piece = [name] →
      endsWithChar ':' name = true →
      alookup name.dropLast s.labels = none →
      parsePiece s piece =
        ({s with labels := (name.dropLast, s.instructions.length) :: s.labels}, .ok none)) ∧
    (∀ (s : AsmState) (piece dn dv : Str),
      splitWhitespace piece = ["#define".toList, dn, dv] →
      alookup dn s.defines = none →
      parsePiece s piece = ({s with defines := (dn, dv) :: s.defines}, .ok none)) ∧
    (∀ (s : AsmState) (piece name : Str) (rest : List Str) (v : Str),
      splitWhitespace piece = name :: rest →
      endsWithChar ':' name = false →
      name ≠ "#define".toList →
      alookup name s.defines = some v →
      (parsePiece s piece).2 =
        parseInstr s.line name ((name :: rest).map (substDefine s.defines)) ∧
      substDefine s.defines name = v) ∧
    ((Assembler.parse (Assembler.new ⟨false, false, false⟩)
        "#define PORT 254\nldi r1 PORT".toList).1.instructions =
      [(.LoadImmediate ⟨1⟩ ⟨254⟩, 2)]) := by
  refine ⟨?_, ?_, ?_, by decide⟩
  · intro s piece name hsplit hend hnone
    unfold parsePiece
    rw [hsplit]
    simp only [hend, if_true, hnone, checkArguments]
    simp [checkArguments]
  · intro s piece dn dv hsplit hnone
    unfold parsePiece
    rw [hsplit]
    have hcolon : endsWithChar ':' ("#define".toList) = false := by decide
    simp only [hcolon, hnone, checkArguments]
    simp [checkArguments]
  · intro s piece name rest v hsplit hend hdef hlook
    refine ⟨by rw [parsePiece_dispatch s piece name rest hsplit hend hdef], ?_⟩
    rw [substDefine, hlook]
    rfl

/-- Witness for the amended C9: a fresh label, a fresh define, and the
substitution of a mnemonic-named define at vector position 0. -/
theorem define_substitution_structure_witness :
    parsePiece ⟨AssemblerConfig.default, [], [], [], 4⟩ ("M:".toList) =
      (⟨AssemblerConfig.default, [], [(['M'], 0)], [], 4⟩, .ok none) ∧
    parsePiece ⟨AssemblerConfig.default, [], [], [], 4⟩ ("#define X 5".toList) =
      (⟨AssemblerConfig.default, [], [], [(['X'], ['5'])], 4⟩, .ok none) ∧
    substDefine [("nop".toList, "hlt".toList)] ("nop".toList) = "hlt".toList := by
  have h := define_substitution_structure
  refine ⟨?_, ?_, ?_⟩
  · exact h.1 ⟨AssemblerConfig.default, [], [], [], 4⟩ ("M:".toList) ("M:".toList)
      (by decide) (by decide) (by decide)
  · exact h.2.1 ⟨AssemblerConfig.default, [], [], [], 4⟩ ("#define X 5".toList)
      (['X']) (['5']) (by decide) (by decide)
  · exact (h.2.2.1 ⟨AssemblerConfig.default, [], [], [("nop".toList, "hlt".toList)], 1⟩
      ("nop".toList) ("nop".toList) [] ("hlt".toList) (by decide) (by decide) (by decide)
      (by decide)).2

/-- `Assembler::parse`, restated over the components of the line loop's
result. -/
theorem parse_outcome (s : AsmState) (input : Str) :
    Assembler.parse s input =
      ((parseLines s 1 (linesOf input)).1,
        if (parseLines s 1 (linesOf input)).1.instructions.length > addressMaxValue then
          .error ((parseLines s 1 (linesOf input)).2 ++ [capacityError])
        else if (parseLines s 1 (linesOf input)).2 ≠ [] then
          .error (parseLines s 1 (linesOf input)).2
        else .ok ()) := by
  rcases hp : parseLines s 1 (linesOf input) with ⟨S, E⟩
  unfold Assembler.parse
  rw [hp]
  by_cases h1 : S.instructions.length > addressMaxValue
  · simp [h1]
  · by_cases h2 : E ≠ [] <;> simp [h1, h2]

/-- The `nop` arm of the dispatch. -/
theorem parseInstr_nop_eq (line : Nat) (t : Str) :
    parseInstr line ['n', 'o', 'p'] [t] = .ok (some .NoOperation) := rfl

/-- Substitution over an empty define table is the identity. -/
theorem substDefine_nil (t : Str) : substDefine [] t = t := rfl

/-- A line holding a single `nop` parses to one `NoOperation` and no
errors, whatever the (define-free) state. -/
theorem parseLine_nop (s : AsmState) (h : s.defines = []) :
    parseLine s ("nop".toList) = (s, .ok [(.NoOperation, s.line)]) := by
  have hpp : parsePiece s ("nop".toList) = (s, .ok (some .NoOperation)) := by
    rw [parsePiece_dispatch s ("nop".toList) ['n', 'o', 'p'] [] (by decide) (by decide) (by decide)]
    rw [h]
    simp only [List.map_cons, List.map_nil, substDefine_nil]
    rw [parseInstr_nop_eq]
  unfold parseLine
  rw [show pieceSplit ("nop".toList) = [("nop".toList)] from by decide]
  simp only [parsePieces, hpp]
  simp [parsePieces]

/-- Any number of `nop` lines parses without errors, adding exactly one
instruction per line. -/
theorem parseLines_nop (n : Nat) :
    ∀ (s : AsmState) (idx : Nat), s.defines = [] →
      (parseLines s idx (List.replicate n ("nop".toList))).2 = [] ∧
      (parseLines s idx (List.replicate n ("nop".toList))).1.instructions.length =
        s.instructions.length + n := by
  induction n with
  | zero => intro s idx h; simp [parseLines, List.replicate]
  | succ n ih =>
    intro s idx h
    rw [List.replicate_succ]
    rw [parseLines]
    rw [parseLine_nop {s with line := idx} h]
    have := ih {s with line := idx, instructions := s.instructions ++ [(.NoOperation, idx)]}
      (idx + 1) h
    refine ⟨this.1, ?_⟩
    rw [this.2]
    simp
    omega

/-- C4 counterexample: 1024 valid `nop` lines — an instruction count of
exactly `MAX_POSSIBLE_COUNT`, which fits program space (addresses
0..1023) — still fail with the capacity error, because `parse` fires on
`count > MAX_VALUE`, not `count > MAX_POSSIBLE_COUNT`. -/
theorem capacity_exact_fit_counterexample :
    (Assembler.parse (Assembler.new ⟨false, false, false⟩)
        (List.intercalate ['\n'] (List.replicate 1024 ("nop".toList)))).1.instructions.length =
      1024 ∧
    1024 ≤ addressMaxPossibleCount ∧
    (Assembler.parse (Assembler.new ⟨false, false, false⟩)
        (List.intercalate ['\n'] (List.replicate 1024 ("nop".toList)))).2 =
      .error [capacityError] := by
  have hlines : linesOf (List.intercalate ['\n'] (List.replicate 1024 ("nop".toList))) =
      List.replicate 1024 ("nop".toList) := by decide
  obtain ⟨he, hl⟩ := parseLines_nop 1024 (Assembler.new ⟨false, false, false⟩) 1 rfl
  rw [parse_outcome, hlines]
  dsimp only
  rw [hl, he]
  refine ⟨by decide, by decide, ?_⟩
  rw [if_pos (by decide)]
  rfl

/-- C4 (amended): the capacity error is pushed onto the same collected
error list, after all line errors, exactly when the instruction count
reaches `MAX_POSSIBLE_COUNT` (i.e. exceeds `MAX_VALUE`); below that
threshold the result carries only the line errors (none when the
program is valid, as the all-`nop` family shows). -/
theorem capacity_error_threshold :
    (∀ (cfg : AssemblerConfig) (input : Str),
      ((Assembler.parse (Assembler.new cfg) input).1.instructions.length ≥
          addressMaxPossibleCount →
        (Assembler.parse (Assembler.new cfg) input).2 =
          .error ((parseLines (Assembler.new cfg) 1 (linesOf input)).2 ++ [capacityError])) ∧
      ((Assembler.parse (Assembler.new cfg) input).1.instructions.length <
          addressMaxPossibleCount →
        ((parseLines (Assembler.new cfg) 1 (linesOf input)).2 = [] →
          (Assembler.parse (Assembler.new cfg) input).2 = .ok ()) ∧
        (∀ es, (Assembler.parse (Assembler.new cfg) input).2 = .error es →
          es = (parseLines (Assembler.new cfg) 1 (linesOf input)).2))) ∧
    (∀ n : Nat,
      (parseLines (Assembler.new ⟨false, false, false⟩) 1
        (List.replicate n ("nop".toList))).2 = [] ∧
      (parseLines (Assembler.new ⟨false, false, false⟩) 1
        (List.replicate n ("nop".toList))).1.instructions.length = n) := by
  constructor
  · intro cfg input
    rw [parse_outcome]
    dsimp only
    constructor
    · intro h
      rw [if_pos]
      simp only [addressMaxPossibleCount] at h
      simp only [addressMaxValue]
      omega
    · intro h
      have hnot : ¬ ((parseLines (Assembler.new cfg) 1 (linesOf input)).1.instructions.length >
          addressMaxValue) := by
        simp only [addressMaxPossibleCount] at h
        simp only [addressMaxValue]
        omega
      rw [if_neg hnot]
      constructor
      · intro he
        simp [he]
      · intro es hes
        by_cases h2 : (parseLines (Assembler.new cfg) 1 (linesOf input)).2 = []
        · simp [h2] at hes
        · simp only [ne_eq, h2, not_false_eq_true, if_true] at hes
          exact (Except.error.injEq _ _ ▸ hes).symm
  · intro n
    obtain ⟨a, b⟩ := parseLines_nop n (Assembler.new ⟨false, false, false⟩) 1 rfl
    exact ⟨a, by simpa [Assembler.new] using b⟩

/-- Witness for the amended C4: a one-`nop` program parses cleanly, and
the two-`nop` line loop collects no errors. -/
theorem capacity_error_threshold_witness :
    (Assembler.parse (Assembler.new ⟨false, false, false⟩) ("nop".toList)).2 = .ok () ∧
    (parseLines (Assembler.new ⟨false, false, false⟩) 1
      (List.replicate 2 ("nop".toList))).2 = [] := by
  have h := capacity_error_threshold
  exact ⟨((h.1 ⟨false, false, false⟩ ("nop".toList)).2 (by decide)).1 (by decide), (h.2 2).1⟩

/-- The fragment loop is compositional: fragments after any prefix —
errors in it or not — are still processed, and both accumulators are
concatenations. -/
theorem parsePieces_append (l1 : List Str) :
    ∀ (s : AsmState) (l2 : List Str),
      parsePieces s (l1 ++ l2) =
        ((parsePieces (parsePieces s l1).1 l2).1,
          (parsePieces s l1).2.1 ++ (parsePieces (parsePieces s l1).1 l2).2.1,
          (parsePieces s l1).2.2 ++ (parsePieces (parsePieces s l1).1 l2).2.2) := by
  induction l1 with
  | nil => intro s l2; simp [parsePieces]
  | cons p t ih =>
    intro s l2
    by_cases hp : p = []
    · simp only [List.cons_append, parsePieces, hp, if_true, List.append_eq]
      simp [ih]
    · simp only [List.cons_append, parsePieces, hp, if_false, List.append_eq]
      rcases hpp : parsePiece s p with ⟨s1, r⟩
      cases r with
      | ok oi => cases oi <;> simp [ih]
      | error e => simp [ih]

/-- The line loop is compositional: lines after any prefix are still
processed and the error list is the concatenation. -/
theorem parseLines_append (l1 : List Str) :
    ∀ (s : AsmState) (idx : Nat) (l2 : List Str),
      parseLines s idx (l1 ++ l2) =
        ((parseLines (parseLines s idx l1).1 (idx + l1.length) l2).1,
          (parseLines s idx l1).2 ++
            (parseLines (parseLines s idx l1).1 (idx + l1.length) l2).2) := by
  induction l1 with
  | nil => intro s idx l2; simp [parseLines]
  | cons l t ih =>
    intro s idx l2
    simp only [List.cons_append, parseLines, List.append_eq]
    rcases hpl : parseLine {s with line := idx} l with ⟨s1, r⟩
    have harith : idx + 1 + t.length = idx + (t.length + 1) := by omega
    cases r with
    | ok is =>
      dsimp only
      rw [ih, harith]
      simp
    | error es =>
      dsimp only
      rw [ih, harith]
      simp

/-- The encode loop is compositional: an error on one instruction never
stops the evaluation of the following instructions. -/
theorem assembleGo_append (labels : LabelTable) (l1 : List (Instruction × Nat)) :
    ∀ (addr : Nat) (l2 : List (Instruction × Nat)),
      assembleGo addr labels (l1 ++ l2) =
        ((assembleGo addr labels l1).1 ++ (assembleGo (addr + l1.length) labels l2).1,
          (assembleGo addr labels l1).2 ++ (assembleGo (addr + l1.length) labels l2).2) := by
  induction l1 with
  | nil => intro addr l2; simp [assembleGo]
  | cons p t ih =>
    intro addr l2
    obtain ⟨inst, line⟩ := p
    simp only [List.cons_append, assembleGo, List.append_eq]
    rw [ih]
    have : addr + 1 + t.length = addr + (t.length + 1) := by omega
    rw [this]
    cases inst.binary addr labels <;> simp

/-- A failing fragment contributes exactly one error and no
instruction. -/
theorem parsePieces_single_error (s : AsmState) (p : Str) (e : AssemblerError)
    (hne : p ≠ []) (h : (parsePiece s p).2 = .error e) :
    parsePieces s [p] = ((parsePiece s p).1, [], [e]) := by
  simp only [parsePieces, hne, if_false]
  rcases hpp : parsePiece s p with ⟨s1, r⟩
  rw [hpp] at h
  cases r with
  | ok oi => exact absurd h (by simp)
  | error e' =>
    simp only at h
    cases h
    simp [parsePieces]

/-- `Assembler::assemble`, restated over the components of the encode
loop's result. -/
theorem assemble_outcome (s : AsmState) :
    Assembler.assemble s =
      (if (assembleGo 0 s.labels s.instructions).2 ≠ [] then
        .error (assembleGo 0 s.labels s.instructions).2
      else .ok (assembleGo 0 s.labels s.instructions).1) := by
  rcases hp : assembleGo 0 s.labels s.instructions with ⟨ws, es⟩
  unfold Assembler.assemble
  rw [hp]

/-- C2: errors are collected, never fail-fast: a bad fragment yields
exactly one error and no instruction; fragment, line, and encode loops
are all compositional, so later fragments, lines, and instructions are
still processed after an error; and whenever either pass ends with a
non-empty collected list the pass returns exactly the collected errors
(`parse` possibly appending the capacity error) and never a success
value, so no output words are produced. -/
theorem errors_collected_not_fail_fast :
    (∀ (s : AsmState) (p : Str) (e : AssemblerError), p ≠ [] →
      (parsePiece s p).2 = .error e →
      parsePieces s [p] = ((parsePiece s p).1, [], [e])) ∧
    (∀ (s : AsmState) (l1 l2 : List Str),
      parsePieces s (l1 ++ l2) =
        ((parsePieces (parsePieces s l1).1 l2).1,
          (parsePieces s l1).2.1 ++ (parsePieces (parsePieces s l1).1 l2).2.1,
          (parsePieces s l1).2.2 ++ (parsePieces (parsePieces s l1).1 l2).2.2)) ∧
    (∀ (s : AsmState) (idx : Nat) (l1 l2 : List Str),
      parseLines s idx (l1 ++ l2) =
        ((parseLines (parseLines s idx l1).1 (idx + l1.length) l2).1,
          (parseLines s idx l1).2 ++
            (parseLines (parseLines s idx l1).1 (idx + l1.length) l2).2)) ∧
    (∀ (labels : LabelTable) (addr : Nat) (l1 l2 : List (Instruction × Nat)),
      assembleGo addr labels (l1 ++ l2) =
        ((assembleGo addr labels l1).1 ++ (assembleGo (addr + l1.length) labels l2).1,
          (assembleGo addr labels l1).2 ++ (assembleGo (addr + l1.length) labels l2).2)) ∧
    (∀ (s : AsmState) (input : Str),
      ((parseLines s 1 (linesOf input)).2 ≠ [] →
        ∀ u, (Assembler.parse s input).2 ≠ .ok u) ∧
      (∀ es, (Assembler.parse s input).2 = .error es →
        es = (parseLines s 1 (linesOf input)).2 ++ [capacityError] ∨
        es = (parseLines s 1 (linesOf input)).2)) ∧
    (∀ s : AsmState,
      ((assembleGo 0 s.labels s.instructions).2 ≠ [] →
        ∀ ws, Assembler.assemble s ≠ .ok ws) ∧
      (∀ es, Assembler.assemble s = .error es →
        es = (assembleGo 0 s.labels s.instructions).2)) := by
  refine ⟨parsePieces_single_error, fun s l1 l2 => parsePieces_append l1 s l2,
    fun s idx l1 l2 => parseLines_append l1 s idx l2,
    fun labels addr l1 l2 => assembleGo_append labels l1 addr l2, ?_, ?_⟩
  · intro s input
    rw [parse_outcome]
    dsimp only
    constructor
    · intro hne u
      by_cases h1 : (parseLines s 1 (linesOf input)).1.instructions.length > addressMaxValue
      · simp [h1]
      · simp [h1, hne]
    · intro es hes
      by_cases h1 : (parseLines s 1 (linesOf input)).1.instructions.length > addressMaxValue
      · rw [if_pos h1] at hes
        exact Or.inl (Except.error.injEq _ _ ▸ hes).symm
      · rw [if_neg h1] at hes
        by_cases h2 : (parseLines s 1 (linesOf input)).2 = []
        · simp [h2] at hes
        · simp only [ne_eq, h2, not_false_eq_true, if_true] at hes
          exact Or.inr (Except.error.injEq _ _ ▸ hes).symm
  · intro s
    rw [assemble_outcome]
    constructor
    · intro hne ws
      simp [hne]
    · intro es hes
      by_cases h2 : (assembleGo 0 s.labels s.instructions).2 = []
      · simp [h2] at hes
      · simp only [ne_eq, h2, not_false_eq_true, if_true] at hes
        exact (Except.error.injEq _ _ ▸ hes).symm

/-- Witness for C2: one bad fragment yields one error, a three-line
program with two bad lines collects both errors, and an assembler state
with two unknown-label jumps collects both encode errors and refuses to
produce words. -/
theorem errors_collected_not_fail_fast_witness :
    parsePieces (Assembler.new ⟨false, false, false⟩) ["foo".toList] =
      (Assembler.new ⟨false, false, false⟩, [], [⟨"Unknown opcode: foo", some 0⟩]) ∧
    ([⟨"Unknown opcode: foo", some 1⟩, ⟨"Unknown opcode: bar", some 3⟩] =
        (parseLines (Assembler.new ⟨false, false, false⟩) 1
          (linesOf "foo\nnop\nbar".toList)).2 ++ [capacityError] ∨
      [(⟨"Unknown opcode: foo", some 1⟩ : AssemblerError), ⟨"Unknown opcode: bar", some 3⟩] =
        (parseLines (Assembler.new ⟨false, false, false⟩) 1
          (linesOf "foo\nnop\nbar".toList)).2) ∧
    [⟨"Unknown label \"L\"", some 1⟩, ⟨"Unknown label \"M\"", some 2⟩] =
      (assembleGo 0 ([] : LabelTable)
        [(.Jump (.label "L".toList), 1), (.Jump (.label "M".toList), 2)]).2 := by
  have h := errors_collected_not_fail_fast
  refine ⟨?_, ?_, ?_⟩
  · exact (h.1 (Assembler.new ⟨false, false, false⟩) ("foo".toList)
      ⟨"Unknown opcode: foo", some 0⟩ (by decide) (by decide)).trans (by decide)
  · exact (h.2.2.2.2.1 (Assembler.new ⟨false, false, false⟩) ("foo\nnop\nbar".toList)).2
      [⟨"Unknown opcode: foo", some 1⟩, ⟨"Unknown opcode: bar", some 3⟩] (by decide)
  · exact (h.2.2.2.2.2 ⟨⟨false, false, false⟩, [(.Jump (.label "L".toList), 1),
      (.Jump (.label "M".toList), 2)], [], [], 0⟩).2
      [⟨"Unknown label \"L\"", some 1⟩, ⟨"Unknown label \"M\"", some 2⟩] (by decide)

/-- `parse_piece` never appends instructions (only `parse` does). -/
theorem parsePiece_instructions (s : AsmState) (p : Str) :
    (parsePiece s p).1.instructions = s.instructions := by
  unfold parsePiece
  rcases splitWhitespace p with _ | ⟨name, rest⟩
  · rfl
  · dsimp only
    repeat' split
    all_goals rfl

/-- A successful arity check pins the argument count. -/
theorem checkArguments_ok_arity {n : Nat} {expected : List String} {line : Nat} {u : Unit}
    (h : checkArguments n expected line = .ok u) : n - 1 = expected.length := by
  unfold checkArguments at h
  by_cases hc : n - 1 ≠ expected.length
  · rw [if_pos hc] at h
    exact absurd h (by simp)
  · omega

/-- A token ending in `:` is its label name plus the colon. -/
theorem endsWithChar_concat {name : Str} {c : Char} (h : endsWithChar c name = true) :
    name.dropLast ++ [c] = name := by
  have hlast : name.getLast? = some c := by
    have := of_decide_eq_true h
    exact this
  have hne : name ≠ [] := by
    intro h0
    rw [h0] at hlast
    simp at hlast
  conv_rhs => rw [← List.dropLast_append_getLast hne]
  have : name.getLast hne = c := by
    have := List.getLast?_eq_getLast name hne
    rw [this] at hlast
    exact (Option.some.injEq _ _ ▸ hlast)
  rw [this]

/-- A fragment that is not exactly `L:` leaves `L`'s binding alone. -/
theorem parsePiece_labels_preserve (s : AsmState) (p L : Str)
    (h : splitWhitespace p ≠ [L ++ [':']]) :
    alookup L (parsePiece s p).1.labels = alookup L s.labels := by
  unfold parsePiece
  rcases hsp : splitWhitespace p with _ | ⟨name, rest⟩
  · rfl
  · dsimp only
    by_cases hc : endsWithChar ':' name
    · simp only [hc, if_true]
      cases hchk : checkArguments (name :: rest).length [] s.line with
      | error e => rfl
      | ok u =>
        have hrest : rest = [] := by
          have := checkArguments_ok_arity hchk
          simp at this
          exact this
        subst hrest
        have hname : name.dropLast ≠ L := by
          intro heq
          apply h
          rw [hsp]
          have := endsWithChar_concat hc
          rw [heq] at this
          rw [← this]
        by_cases hdup : (alookup name.dropLast s.labels).isSome
        · simp only [hdup, if_true]
        · simp only [hdup, if_false]
          simp [alookup, hname]
    · simp only [hc, if_false]
      by_cases hd : name = "#define".toList
      · simp only [hd, if_true]
        cases hchk : checkArguments ("#define".toList :: rest).length ["Name", "Value"] s.line with
        | error e => rfl
        | ok u =>
          rcases rest with _ | ⟨dn, _ | ⟨dv, tl⟩⟩
          · rfl
          · rfl
          · by_cases hdup2 : (alookup dn s.defines).isSome
            · simp [hdup2]
            · simp [hdup2]
      · have hd2 : ¬ (name = ['#', 'd', 'e', 'f', 'i', 'n', 'e']) := by simpa using hd
        simp [hd2]

/-- The only label-table change a fragment can make is to insert one
fresh binding, recorded at the current instruction count, and only for a
fragment that is exactly a label directive. -/
theorem parsePiece_labels_cases (s : AsmState) (p : Str) :
    (parsePiece s p).1.labels = s.labels ∨
    ∃ nd, alookup nd s.labels = none ∧
      (parsePiece s p).1.labels = (nd, s.instructions.length) :: s.labels ∧
      splitWhitespace p = [nd ++ [':']] := by
  unfold parsePiece
  rcases hsp : splitWhitespace p with _ | ⟨name, rest⟩
  · exact Or.inl rfl
  · dsimp only
    by_cases hc : endsWithChar ':' name
    · simp only [hc, if_true]
      cases hchk : checkArguments (name :: rest).length [] s.line with
      | error e => exact Or.inl rfl
      | ok u =>
        have hrest : rest = [] := by
          have := checkArguments_ok_arity hchk
          simp at this
          exact this
        subst hrest
        by_cases hdup : (alookup name.dropLast s.labels).isSome
        · simp [hdup]
        · simp only [hdup, if_false]
          refine Or.inr ⟨name.dropLast, ?_, rfl, ?_⟩
          · rcases hv : alookup name.dropLast s.labels with _ | v
            · rfl
            · rw [hv] at hdup; simp at hdup
          · rw [endsWithChar_concat hc]
    · simp only [hc]
      by_cases hd2 : name = ['#', 'd', 'e', 'f', 'i', 'n', 'e']
      · simp only [hd2, if_true, if_false]
        cases hchk : checkArguments (['#', 'd', 'e', 'f', 'i', 'n', 'e'] :: rest).length
            ["Name", "Value"] s.line with
        | error e => simp [hchk]
        | ok u =>
          rcases rest with _ | ⟨dn, _ | ⟨dv, tl⟩⟩
          · simp [hchk]
          · simp [hchk]
          · simp only [hchk]
            by_cases hdup2 : (alookup dn s.defines).isSome
            · simp [hdup2]
            · simp [hdup2]
      · have hd3 : ¬ (name = "#define".toList) := by simpa using hd2
        simp [hd3, hd2]

/-- A fragment that is not exactly `L:` leaves `L`'s binding alone
(consequence of the cases lemma, usable for any current binding). -/
theorem parsePiece_labels_keep (s : AsmState) (p L : Str) (a : Nat)
    (h : alookup L s.labels = some a) :
    alookup L (parsePiece s p).1.labels = some a := by
  rcases parsePiece_labels_cases s p with hsame | ⟨nd, hnone, hins, _⟩
  · rw [hsame, h]
  · rw [hins, alookup]
    by_cases hnd : nd = L
    · rw [hnd] at hnone
      rw [hnone] at h
      cases h
    · rw [if_neg hnd, h]

/-- Fragment-loop lift: instructions are untouched. -/
theorem parsePieces_instructions (ps : List Str) :
    ∀ s : AsmState, (parsePieces s ps).1.instructions = s.instructions := by
  induction ps with
  | nil => intro s; rfl
  | cons p t ih =>
    intro s
    by_cases hp : p = []
    · simp only [parsePieces, hp, if_true]
      rcases hr : parsePieces s t with ⟨s1, is1, es1⟩
      have := ih s
      rw [hr] at this
      exact this
    · simp only [parsePieces, hp, if_false]
      rcases hpp : parsePiece s p with ⟨s1, r⟩
      have h1 : s1.instructions = s.instructions := by
        have := parsePiece_instructions s p
        rw [hpp] at this
        exact this
      cases r with
      | ok oi =>
        cases oi <;>
          · dsimp only
            rcases hr : parsePieces s1 t with ⟨s2, is2, es2⟩
            have := ih s1
            rw [hr] at this
            simp only
            rw [this, h1]
      | error e =>
        dsimp only
        rcases hr : parsePieces s1 t with ⟨s2, is2, es2⟩
        have := ih s1
        rw [hr] at this
        simp only
        rw [this, h1]

/-- Fragment-loop lift of label preservation. -/
theorem parsePieces_labels_preserve (ps : List Str) :
    ∀ (s : AsmState) (L : Str), (∀ p ∈ ps, splitWhitespace p ≠ [L ++ [':']]) →
      alookup L (parsePieces s ps).1.labels = alookup L s.labels := by
  induction ps with
  | nil => intro s L _; rfl
  | cons p t ih =>
    intro s L hall
    by_cases hp : p = []
    · simp only [parsePieces, hp, if_true]
      rcases hr : parsePieces s t with ⟨s1, is1, es1⟩
      have := ih s L (fun q hq => hall q (by simp [hq]))
      rw [hr] at this
      exact this
    · simp only [parsePieces, hp, if_false]
      rcases hpp : parsePiece s p with ⟨s1, r⟩
      have h1 : alookup L s1.labels = alookup L s.labels := by
        have := parsePiece_labels_preserve s p L (hall p (by simp))
        rw [hpp] at this
        exact this
      have h2 : alookup L (parsePieces s1 t).1.labels = alookup L s1.labels :=
        ih s1 L (fun q hq => hall q (by simp [hq]))
      cases r with
      | ok oi =>
        cases oi <;>
          · dsimp only
            rcases hr : parsePieces s1 t with ⟨s2, is2, es2⟩
            rw [hr] at h2
            simp only
            rw [h2, h1]
      | error e =>
        dsimp only
        rcases hr : parsePieces s1 t with ⟨s2, is2, es2⟩
        rw [hr] at h2
        simp only
        rw [h2, h1]

/-- Fragment-loop lift of binding stability. -/
theorem parsePieces_labels_keep (ps : List Str) :
    ∀ (s : AsmState) (L : Str) (a : Nat), alookup L s.labels = some a →
      alookup L (parsePieces s ps).1.labels = some a := by
  induction ps with
  | nil => intro s L a h; exact h
  | cons p t ih =>
    intro s L a h
    by_cases hp : p = []
    · simp only [parsePieces, hp, if_true]
      rcases hr : parsePieces s t with ⟨s1, is1, es1⟩
      have := ih s L a h
      rw [hr] at this
      exact this
    · simp only [parsePieces, hp, if_false]
      rcases hpp : parsePiece s p with ⟨s1, r⟩
      have h1 : alookup L s1.labels = some a := by
        have := parsePiece_labels_keep s p L a h
        rw [hpp] at this
        exact this
      have h2 := ih s1 L a h1
      cases r with
      | ok oi =>
        cases oi <;>
          · dsimp only
            rcases hr : parsePieces s1 t with ⟨s2, is2, es2⟩
            rw [hr] at h2
            simp only
            exact h2
      | error e =>
        dsimp only
        rcases hr : parsePieces s1 t with ⟨s2, is2, es2⟩
        rw [hr] at h2
        simp only
        exact h2

/-- `parse_line` threads the fragment loop's state whether or not the
line failed. -/
theorem parseLine_fst (s : AsmState) (l : Str) :
    (parseLine s l).1 = (parsePieces s (pieceSplit l)).1 := by
  unfold parseLine
  rcases parsePieces s (pieceSplit l) with ⟨s1, is1, es1⟩
  by_cases he : es1 = [] <;> simp [he]

/-- Line-loop lift of label preservation. -/
theorem parseLines_labels_preserve (ls : List Str) :
    ∀ (s : AsmState) (idx : Nat) (L : Str),
      (∀ l ∈ ls, ∀ p ∈ pieceSplit l, splitWhitespace p ≠ [L ++ [':']]) →
      alookup L (parseLines s idx ls).1.labels = alookup L s.labels := by
  induction ls with
  | nil => intro s idx L _; rfl
  | cons l t ih =>
    intro s idx L hall
    simp only [parseLines]
    rcases hpl : parseLine {s with line := idx} l with ⟨s1, r⟩
    have h1 : alookup L s1.labels = alookup L s.labels := by
      have hf := parseLine_fst {s with line := idx} l
      rw [hpl] at hf
      simp only at hf
      rw [hf]
      exact parsePieces_labels_preserve (pieceSplit l) _ L (hall l (by simp))
    have hrest : ∀ l' ∈ t, ∀ p ∈ pieceSplit l', splitWhitespace p ≠ [L ++ [':']] :=
      fun l' hl' => hall l' (by simp [hl'])
    cases r with
    | ok is =>
      dsimp only
      rw [ih {s1 with instructions := s1.instructions ++ is} (idx + 1) L hrest]
      exact h1
    | error es =>
      dsimp only
      rcases hr : parseLines s1 (idx + 1) t with ⟨s2, es2⟩
      have := ih s1 (idx + 1) L hrest
      rw [hr] at this
      simp only
      rw [this, h1]

/-- Line-loop lift of binding stability. -/
theorem parseLines_labels_keep (ls : List Str) :
    ∀ (s : AsmState) (idx : Nat) (L : Str) (a : Nat), alookup L s.labels = some a →
      alookup L (parseLines s idx ls).1.labels = some a := by
  induction ls with
  | nil => intro s idx L a h; exact h
  | cons l t ih =>
    intro s idx L a h
    simp only [parseLines]
    rcases hpl : parseLine {s with line := idx} l with ⟨s1, r⟩
    have h1 : alookup L s1.labels = some a := by
      have hf := parseLine_fst {s with line := idx} l
      rw [hpl] at hf
      simp only at hf
      rw [hf]
      exact parsePieces_labels_keep (pieceSplit l) _ L a h
    cases r with
    | ok is =>
      dsimp only
      exact ih {s1 with instructions := s1.instructions ++ is} (idx + 1) L a h1
    | error es =>
      dsimp only
      rcases hr : parseLines s1 (idx + 1) t with ⟨s2, es2⟩
      have := ih s1 (idx + 1) L a h1
      rw [hr] at this
      simp only
      exact this

/-- A fresh `L:` fragment records `L` at the current instruction count
and yields no instruction. -/
theorem parsePiece_label_insert (s : AsmState) (p L : Str)
    (hsp : splitWhitespace p = [L ++ [':']])
    (hnone : alookup L s.labels = none) :
    parsePiece s p = ({s with labels := (L, s.instructions.length) :: s.labels}, .ok none) := by
  unfold parsePiece
  rw [hsp]
  have hc : endsWithChar ':' (L ++ [':']) = true := by
    simp [endsWithChar]
  have hdl : (L ++ [':']).dropLast = L := List.dropLast_concat
  simp only [hc, if_true, hdl]
  simp [checkArguments, hnone]

/-- C1 counterexample: in `nop; L:` the `nop` fragment parses to one
instruction textually before the `L:` directive, yet the label table
records `L ↦ 0` (line-local instructions are appended only after the
whole line), so `jmp L` encodes address 0 (word `0xA000`), not the
"number of instructions parsed before the directive" (1, word
`0xA001`). -/
theorem label_midline_batching_counterexample :
    (parsePieces (Assembler.new ⟨false, false, false⟩) ["nop".toList]).2.1.length = 1 ∧
    alookup "L".toList
      (Assembler.parse (Assembler.new ⟨false, false, false⟩)
        "nop; L:\nhlt\njmp L".toList).1.labels = some 0 ∧
    Assembler.assemble
      (Assembler.parse (Assembler.new ⟨false, false, false⟩)
        "nop; L:\nhlt\njmp L".toList).1 = .ok [0, 4096, 40960] ∧
    (40960 : Nat) ≠ 40961 := by
  refine ⟨by decide, by decide, by decide, by decide⟩

/-- C1 (amended): a label defined exactly once (no earlier definition in
previous lines or earlier fragments of its own line) is recorded at the
number of instructions appended by the lines before its own line —
fragments earlier on the same line are not counted — and every
Jump/Branch/Call referencing it, wherever it sits, resolves to exactly
that index; the two orderings of the spec's example each resolve `L` to
its own definition point. -/
theorem label_forward_backward_resolution :
    (∀ (cfg : AssemblerConfig) (input L : Str) (pre post : List Str) (dl : Str)
        (ppre ppost : List Str) (defPiece : Str),
      linesOf input = pre ++ dl :: post →
      pieceSplit dl = ppre ++ defPiece :: ppost →
      splitWhitespace defPiece = [L ++ [':']] →
      (∀ l ∈ pre, ∀ p ∈ pieceSplit l, splitWhitespace p ≠ [L ++ [':']]) →
      (∀ p ∈ ppre, splitWhitespace p ≠ [L ++ [':']]) →
      alookup L (Assembler.parse (Assembler.new cfg) input).1.labels =
        some ((parseLines (Assembler.new cfg) 1 pre).1.instructions.length) ∧
      (∀ addr,
        Location.get_address (.label L) addr
            (Assembler.parse (Assembler.new cfg) input).1.labels =
          .ok ((parseLines (Assembler.new cfg) 1 pre).1.instructions.length)) ∧
      (∀ addr,
        Instruction.binary (.Jump (.label L)) addr
            (Assembler.parse (Assembler.new cfg) input).1.labels =
          .ok ((((Instruction.Jump (.label L)).index &&& 15) <<< 12) |||
            ((((parseLines (Assembler.new cfg) 1 pre).1.instructions.length) % 65536) &&& 1023)) ∧
        Instruction.binary (.Call (.label L)) addr
            (Assembler.parse (Assembler.new cfg) input).1.labels =
          .ok ((((Instruction.Call (.label L)).index &&& 15) <<< 12) |||
            ((((parseLines (Assembler.new cfg) 1 pre).1.instructions.length) % 65536) &&& 1023)) ∧
        (∀ c : Condition,
          Instruction.binary (.Branch c (.label L)) addr
              (Assembler.parse (Assembler.new cfg) input).1.labels =
            .ok ((((Instruction.Branch c (.label L)).index &&& 15) <<< 12) |||
              ((c.index &&& 3) <<< 10) |||
              ((((parseLines (Assembler.new cfg) 1 pre).1.instructions.length) % 65536) &&& 1023))))) ∧
    Assembler.assemble (Assembler.parse (Assembler.new ⟨false, false, false⟩)
      "jmp L\nL:\nhlt".toList).1 = .ok [40961, 4096] ∧
    Assembler.assemble (Assembler.parse (Assembler.new ⟨false, false, false⟩)
      "L:\njmp L\nhlt".toList).1 = .ok [40960, 4096] := by
  refine ⟨?_, by decide, by decide⟩
  intro cfg input L pre post dl ppre ppost defPiece hlines hpieces hdef hpre hppre
  have hlook : alookup L (Assembler.parse (Assembler.new cfg) input).1.labels =
      some ((parseLines (Assembler.new cfg) 1 pre).1.instructions.length) := by
    have hparse1 : (Assembler.parse (Assembler.new cfg) input).1 =
        (parseLines (Assembler.new cfg) 1 (linesOf input)).1 := by
      rw [parse_outcome]
    rw [hparse1, hlines, parseLines_append pre]
    dsimp only
    have hpreN : alookup L (parseLines (Assembler.new cfg) 1 pre).1.labels = none := by
      rw [parseLines_labels_preserve pre (Assembler.new cfg) 1 L hpre]
      rfl
    simp only [parseLines]
    rcases hpl : parseLine
        {(parseLines (Assembler.new cfg) 1 pre).1 with line := 1 + pre.length} dl with ⟨sl, r⟩
    have hlk : alookup L sl.labels =
        some ((parseLines (Assembler.new cfg) 1 pre).1.instructions.length) := by
      have hf := parseLine_fst
        {(parseLines (Assembler.new cfg) 1 pre).1 with line := 1 + pre.length} dl
      rw [hpl] at hf
      simp only at hf
      rw [hpieces, parsePieces_append ppre] at hf
      dsimp only at hf
      have hnone2 : alookup L (parsePieces
          {(parseLines (Assembler.new cfg) 1 pre).1 with line := 1 + pre.length}
          ppre).1.labels = none := by
        rw [parsePieces_labels_preserve ppre _ L hppre]
        exact hpreN
      have hinstr2 : (parsePieces
          {(parseLines (Assembler.new cfg) 1 pre).1 with line := 1 + pre.length}
          ppre).1.instructions =
          (parseLines (Assembler.new cfg) 1 pre).1.instructions :=
        parsePieces_instructions ppre _
      have hne : defPiece ≠ [] := by
        intro h0
        rw [h0] at hdef
        exact absurd hdef (by simp [splitWhitespace, splitWhitespaceAux])
      rw [hf]
      simp only [parsePieces, hne, if_false]
      rw [parsePiece_label_insert _ defPiece L hdef hnone2]
      dsimp only
      apply parsePieces_labels_keep ppost
      rw [alookup, if_pos rfl, hinstr2]
    cases r with
    | ok is =>
      dsimp only
      exact parseLines_labels_keep post _ _ L _ hlk
    | error es =>
      dsimp only
      rcases hr : parseLines sl (1 + pre.length + 1) post with ⟨s2, es2⟩
      have := parseLines_labels_keep post sl (1 + pre.length + 1) L _ hlk
      rw [hr] at this
      simp only
      exact this
  refine ⟨hlook, ?_, ?_⟩
  · intro addr
    simp only [Location.get_address, hlook]
  · intro addr
    refine ⟨?_, ?_, ?_⟩
    · simp only [Instruction.binary, Location.get_address, hlook]
    · simp only [Instruction.binary, Location.get_address, hlook]
    · intro c
      simp only [Instruction.binary, Location.get_address, hlook]

/-- Witness for the amended C1: in `jmp L / L: / hlt` the forward
reference records `L` at index 1 (one instruction from the previous
lines) and the jump encodes to `0xA001`. -/
theorem label_forward_backward_resolution_witness :
    alookup "L".toList
      (Assembler.parse (Assembler.new AssemblerConfig.default)
        "jmp L\nL:\nhlt".toList).1.labels =
      some ((parseLines (Assembler.new AssemblerConfig.default) 1
        ["jmp L".toList]).1.instructions.length) ∧
    Instruction.binary (.Jump (.label "L".toList)) 0
      (Assembler.parse (Assembler.new AssemblerConfig.default)
        "jmp L\nL:\nhlt".toList).1.labels = .ok 40961 := by
  have h := label_forward_backward_resolution.1 AssemblerConfig.default
    ("jmp L\nL:\nhlt".toList) ("L".toList) ["jmp L".toList] ["hlt".toList] ("L:".toList)
    [] [] ("L:".toList) (by decide) (by decide) (by decide) (by decide) (by decide)
  exact ⟨h.1, ((h.2.2 0).1).trans (by decide)⟩
